import Mathlib

/-!
Formal model of the cogbuilder container engine (`src/lib.rs`).

The underlying file is modelled as a byte-addressed store: `FileState.bytes`
gives the byte stored at every position and `FileState.size` the current file
length.  A positioned `write_all` is `writeBytesAt`, a positioned `read_exact`
is `readBytesAt`.  Machine integers are `Nat`, with an explicit `% 2 ^ 64`
where the code truncates to `u64` (little-endian serialization), and the
`u32` `checked_mul` overflow in `CogBuilder::new` is an explicit `2 ^ 32`
bound check.  Fallible operations return `Option`: `none` models a panic
(a failed `assert!` / `unwrap`).
-/

/-- Fixed tile edge length (`TILE_SIZE` in the source). -/
def TILE_SIZE : Nat := 1024

/-- Number of TIFF tags written per directory (`NUM_TAGS`). -/
def NUM_TAGS : Nat := 12

/-- Index of the tile-offsets tag in the fixed tag list (`OFFSETS_TAG_INDEX`). -/
def OFFSETS_TAG_INDEX : Nat := 9

/-- Index of the tile-byte-counts tag in the fixed tag list (`LENGTHS_TAG_INDEX`). -/
def LENGTHS_TAG_INDEX : Nat := 10

/-- Little-endian bytes of a `u16` value (`u16::to_le_bytes`). -/
def toLE16 (v : Nat) : List Nat := [v % 256, v / 256 % 256]

/-- Little-endian bytes of a `u64` value (`u64::to_le_bytes`). -/
def toLE64 (v : Nat) : List Nat :=
  [v % 256, v / 256 % 256, v / 65536 % 256, v / 16777216 % 256,
   v / 4294967296 % 256, v / 1099511627776 % 256,
   v / 281474976710656 % 256, v / 72057594037927936 % 256]

/-- Little-endian decoding of a byte list (`u64::from_le_bytes` /
`u16::from_le_bytes`, depending on the length of the input). -/
def fromLEBytes : List Nat → Nat
  | [] => 0
  | b :: rest => b + 256 * fromLEBytes rest

/-- The backing file: a byte at every position, plus the current length. -/
structure FileState where
  bytes : Nat → Nat
  size : Nat

/-- A file with no prior content. -/
def emptyFile : FileState := ⟨fun _ => 0, 0⟩

/-- Positioned `write_all`: overwrites `d.length` bytes starting at `pos`,
extending the file length if the write reaches past the current end. -/
def writeBytesAt (f : FileState) (pos : Nat) (d : List Nat) : FileState :=
  { bytes := fun i => if pos ≤ i ∧ i < pos + d.length then d.getD (i - pos) 0 else f.bytes i
    size := max f.size (pos + d.length) }

/-- Positioned `read_exact` of `n` bytes starting at `pos`. -/
def readBytesAt (f : FileState) (pos n : Nat) : List Nat :=
  (List.range n).map (fun i => f.bytes (pos + i))

/-- Read a little-endian `u64` at `pos`. -/
def readU64 (f : FileState) (pos : Nat) : Nat := fromLEBytes (readBytesAt f pos 8)

/-- Read a little-endian `u16` at `pos`. -/
def readU16 (f : FileState) (pos : Nat) : Nat := fromLEBytes (readBytesAt f pos 2)

/-- The little-endian `u64` found at byte offset `j` inside a byte list. -/
def u64At (d : List Nat) (j : Nat) : Nat :=
  fromLEBytes ((List.range 8).map (fun i => d.getD (j + i) 0))

/-- The pyramid-dimension loop of `CogBuilder::new`: starting from the base
`(width, height)`, push the current dimensions, stop once both are at most
`TILE_SIZE`, otherwise ceiling-halve both.  `fuel` is a structural-recursion
bound; `pyramidDims` supplies enough fuel for the loop to run to completion.
This idealised version computes in unbounded naturals; `pyramidAux32` below
performs the same loop with the source's wrapping `u32` arithmetic, and the
two agree whenever no `u32` addition overflows. -/
def pyramidAux : Nat → Nat → Nat → List (Nat × Nat)
  | 0, _, _ => []
  | fuel + 1, w, h =>
    if w ≤ TILE_SIZE ∧ h ≤ TILE_SIZE then [(w, h)]
    else (w, h) :: pyramidAux fuel ((w + 1) / 2) ((h + 1) / 2)

/-- The list of `(width, height)` pairs of all pyramid levels, level 0 first. -/
def pyramidDims (w h : Nat) : List (Nat × Nat) := pyramidAux (w + h + 1) w h

/-- Tile count of one level: `ceil(w/TILE_SIZE) * ceil(h/TILE_SIZE)`
(`tiles_width * tiles_height` in `CogBuilder::new`). -/
def tileCount (w h : Nat) : Nat :=
  ((w + TILE_SIZE - 1) / TILE_SIZE) * ((h + TILE_SIZE - 1) / TILE_SIZE)

/-- The per-level tile counts (`tile_counts` in `CogBuilder::new`). -/
def pyramidTileCounts (w h : Nat) : List Nat :=
  (pyramidDims w h).map (fun d => tileCount d.1 d.2)

/-- Wrapping 32-bit addition: the release-mode semantics of the source's `u32`
additions (in debug builds the same overflow panics instead of wrapping). -/
def add32 (a b : Nat) : Nat := (a + b) % 2 ^ 32

/-- Wrapping 32-bit decrement (`x - 1` on `u32`). -/
def pred32 (a : Nat) : Nat := (a + 2 ^ 32 - 1) % 2 ^ 32

/-- The per-axis tile count exactly as the source computes it in `u32`:
`(d + TILE_SIZE - 1) / TILE_SIZE` with wrapping addition and subtraction. -/
def tilesAcross32 (d : Nat) : Nat := pred32 (add32 d TILE_SIZE) / TILE_SIZE

/-- A level's tile count as computed by the source's `u32` arithmetic
(the `checked_mul` overflow guard is separate and modelled in
`CogBuilder.new`). -/
def tileCount32 (w h : Nat) : Nat := tilesAcross32 w * tilesAcross32 h

/-- One ceiling-halving step `(d + 1) / 2` as computed in `u32`: the addition
wraps at `2 ^ 32`. -/
def halve32 (d : Nat) : Nat := add32 d 1 / 2

/-- The pyramid-dimension loop of `CogBuilder::new` with the source's `u32`
arithmetic: identical to `pyramidAux` except that the halving wraps at
`2 ^ 32`.  `pyramidAux` is the idealised unbounded version; the two agree
whenever no `u32` addition overflows. -/
def pyramidAux32 : Nat → Nat → Nat → List (Nat × Nat)
  | 0, _, _ => []
  | fuel + 1, w, h =>
    if w ≤ TILE_SIZE ∧ h ≤ TILE_SIZE then [(w, h)]
    else (w, h) :: pyramidAux32 fuel (halve32 w) (halve32 h)

/-- The pyramid levels as the `u32` program derives them. -/
def pyramidDims32 (w h : Nat) : List (Nat × Nat) := pyramidAux32 (w + h + 1) w h

/-- The per-level tile counts as the `u32` program derives them. -/
def pyramidTileCounts32 (w h : Nat) : List Nat :=
  (pyramidDims32 w h).map (fun d => tileCount32 d.1 d.2)

/-- The 16-byte big-TIFF header written at position 0. -/
def headerBytes : List Nat := [73, 73, 43, 0, 8, 0, 0, 0, 16, 0, 0, 0, 0, 0, 0, 0]

/-- One 20-byte big-TIFF tag entry: 2-byte id, 2-byte type, 8-byte count,
8-byte value field. -/
def tagEntry (id typ count : Nat) (value : List Nat) : List Nat :=
  toLE16 id ++ toLE16 typ ++ toLE64 count ++ value

/-- Value field of the bits-per-sample tag: the channel depths padded with
zeros to 8 bytes. -/
def bpsValue (bpp : List Nat) : List Nat := bpp ++ List.replicate (8 - bpp.length) 0

/-- The fixed ordered tag list of one level's directory, exactly as emitted by
`CogBuilder::new`.  For a level with `tc ≤ 1` the tile-offsets (0x144) and
tile-byte-counts (0x145) values are the inline `single` pair; otherwise they
point at the external table (`indexesOffset`). -/
def ifdEntries (level w h : Nat) (bpp : List Nat) (signed : Bool) (tc indexesOffset : Nat)
    (single : Nat × Nat) : List (List Nat) :=
  [tagEntry 0xFE 4 1 (toLE64 (if level = 0 then 0 else 1)),
   tagEntry 0x100 4 1 (toLE64 w),
   tagEntry 0x101 4 1 (toLE64 h),
   tagEntry 0x102 1 bpp.length (bpsValue bpp),
   tagEntry 0x103 4 1 (toLE64 5),
   tagEntry 0x106 4 1 (toLE64 (if bpp.length = 3 then 2 else 1)),
   tagEntry 0x115 4 1 (toLE64 bpp.length),
   tagEntry 0x142 4 1 (toLE64 TILE_SIZE),
   tagEntry 0x143 4 1 (toLE64 TILE_SIZE),
   tagEntry 0x144 16 tc (toLE64 (if 1 < tc then indexesOffset else single.1)),
   tagEntry 0x145 16 tc (toLE64 (if 1 < tc then indexesOffset + tc * 8 else single.2)),
   tagEntry 0x153 3 1 (toLE64 (if signed then 2 else 1))]

/-- One level's directory record (`ifd` in `CogBuilder::new`): the 8-byte tag
count, the tag entries, and the 8-byte next-directory offset (zero for the
last level). -/
def ifdBytes (L level w h : Nat) (bpp : List Nat) (signed : Bool) (tc indexesOffset : Nat)
    (single : Nat × Nat) : List Nat :=
  toLE64 NUM_TAGS ++ (ifdEntries level w h bpp signed tc indexesOffset single).flatten
    ++ toLE64 (if level + 1 < L then (level + 1) * 1024 else 0)

/-- One 1024-byte slot of the directory region: level 0's slot also carries
the 16-byte header; each directory is zero-padded to the 1024-byte boundary
(`data.extend_from_slice(&vec![0; 1024 - (data.len() % 1024)])`). -/
def slotBytes (L level w h : Nat) (bpp : List Nat) (signed : Bool) (tc indexesOffset : Nat)
    (single : Nat × Nat) : List Nat :=
  if level = 0 then
    headerBytes ++ ifdBytes L level w h bpp signed tc indexesOffset single
      ++ List.replicate 752 0
  else
    ifdBytes L level w h bpp signed tc indexesOffset single ++ List.replicate 768 0

/-- The slot of a given level, with its parameters read off the pyramid
geometry; `indexes_offset` for a level is `1024 * L` plus 16 bytes per tile of
every earlier level, matching the running accumulation in the source. -/
def levelSlot (dims : List (Nat × Nat)) (tcs : List Nat) (bpp : List Nat) (signed : Bool)
    (single : Nat × Nat) (level : Nat) : List Nat :=
  slotBytes tcs.length level (dims.getD level (0, 0)).1 (dims.getD level (0, 0)).2 bpp signed
    (tcs.getD level 0) (1024 * tcs.length + 16 * (tcs.take level).sum) single

/-- The whole header + directory region (`data` in `CogBuilder::new`):
`1024 * level_count` bytes. -/
def encodeData (dims : List (Nat × Nat)) (tcs : List Nat) (bpp : List Nat) (signed : Bool)
    (single : Nat × Nat) : List Nat :=
  ((List.range tcs.length).map (levelSlot dims tcs bpp signed single)).flatten

/-- The sentinel-initialized offset/size tables as `u64` values (`tile_data`
in `CogBuilder::new`): per level, `tc` offsets of 1 then `tc` sizes of 0. -/
def tableVals (tcs : List Nat) : List Nat :=
  (tcs.map (fun tc => List.replicate tc 1 ++ List.replicate tc 0)).flatten

/-- The sentinel tables as bytes (`bytemuck::cast_slice(&tile_data)`). -/
def tableBytes (tcs : List Nat) : List Nat := ((tableVals tcs).map toLE64).flatten

/-- The tag scan over one prior directory record performed when reopening:
read the tag count at `ifdOff`, then for each tag read its 2-byte kind and
8-byte value; tags 0x144 / 0x145 of a single-tile level update the recovered
inline offset/size pair.  Every read slices the `1024 * levels`-byte
`ifd_buffers` buffer (here `bufLen`); a slice reaching past its end panics
(`ifd_buffers[..][..2]` / `[..8]` in the source), modelled as `none`.  A
stale stored tag count therefore walks the scan out of bounds. -/
def scanLevel (f : FileState) (bufLen tcOfLevel ifdOff : Nat) (acc : Nat × Nat) :
    Option (Nat × Nat) :=
  if bufLen < ifdOff + 8 then none
  else
    (List.range (readU64 f ifdOff)).foldl (fun a t =>
      a.bind fun a =>
        if bufLen < ifdOff + 8 + 20 * t + 2 then none
        else if bufLen < ifdOff + 8 + 20 * t + 12 + 8 then none
        else
          let kind := readU16 f (ifdOff + 8 + 20 * t)
          let value := readU64 f (ifdOff + 8 + 20 * t + 12)
          if kind = 0x144 ∧ tcOfLevel = 1 then some (value, a.2)
          else if kind = 0x145 ∧ tcOfLevel = 1 then some (a.1, value)
          else some a) (some acc)

/-- The whole prior-directory scan of `CogBuilder::new`: level 0's record
starts at byte 16, level `i > 0`'s at byte `1024 * i`; a slice panic in any
level's scan aborts construction (`none`). -/
def scanIFDs (f : FileState) (tcs : List Nat) : Option (Nat × Nat) :=
  (List.range tcs.length).foldl (fun acc i =>
    acc.bind fun a =>
      scanLevel f (1024 * tcs.length) (tcs.getD i 0) (if i = 0 then 16 else 1024 * i) a)
    (some (1, 0))

/-- The per-level record-size assertion `assert!(ifd.len() <= 1000)`. -/
def ifdOversized (dims : List (Nat × Nat)) (tcs : List Nat) (bpp : List Nat) (signed : Bool)
    (single : Nat × Nat) : Bool :=
  (List.range tcs.length).any (fun level =>
    1000 < (ifdBytes tcs.length level (dims.getD level (0, 0)).1 (dims.getD level (0, 0)).2
      bpp signed (tcs.getD level 0) (1024 * tcs.length + 16 * (tcs.take level).sum) single).length)

/-- The in-memory builder state (`struct CogBuilder`, minus the I/O handles). -/
structure CogBuilder where
  widths : List Nat
  heights : List Nat
  tile_counts : List Nat
  file_size : Nat

/-- `CogBuilder::new`: derive the pyramid, fault on tile-count overflow or a
bad channel-depth list or an oversized record, recover the inline single-tile
offset/size pair from the prior directory region when one is present (a slice
panic during that scan aborts construction), rewrite the header + directory
region, and append the still-missing portion of the sentinel-initialized
offset/size tables. -/
def CogBuilder.new (w h : Nat) (bpp : List Nat) (signed : Bool) (f : FileState) :
    Option (CogBuilder × FileState) :=
  let dims := pyramidDims w h
  let tcs := pyramidTileCounts w h
  if dims.any (fun d => 2 ^ 32 ≤ tileCount d.1 d.2) then none
  else if bpp.length = 0 ∨ 8 < bpp.length then none
  else
    let orig := f.size
    let newSize := max (1024 * tcs.length + 16 * tcs.sum) orig
    (if 1024 * tcs.length ≤ orig then scanIFDs f tcs else some (1, 0)).bind fun single =>
      if ifdOversized dims tcs bpp signed single then none
      else
        let data := encodeData dims tcs bpp signed single
        let f1 := writeBytesAt f 0 data
        let f2 := if orig < newSize then
            writeBytesAt f1 (max orig data.length) ((tableBytes tcs).drop (orig - data.length))
          else f1
        some ({ widths := dims.map Prod.fst, heights := dims.map Prod.snd,
                tile_counts := tcs, file_size := newSize }, f2)

/-- `CogBuilder::width`. -/
def CogBuilder.width (b : CogBuilder) (level : Nat) : Nat := b.widths.getD level 0

/-- `CogBuilder::height`. -/
def CogBuilder.height (b : CogBuilder) (level : Nat) : Nat := b.heights.getD level 0

/-- `CogBuilder::tiles_across`. -/
def CogBuilder.tiles_across (b : CogBuilder) (level : Nat) : Nat :=
  (b.widths.getD level 0 + TILE_SIZE - 1) / TILE_SIZE

/-- `CogBuilder::tiles_down`. -/
def CogBuilder.tiles_down (b : CogBuilder) (level : Nat) : Nat :=
  (b.heights.getD level 0 + TILE_SIZE - 1) / TILE_SIZE

/-- `CogBuilder::levels`. -/
def CogBuilder.levels (b : CogBuilder) : Nat := b.tile_counts.length

/-- `CogBuilder::offset_size_locations`: the absolute byte locations of a
slot's offset and size integers.  A level with more than one tile uses the
external table after the directory region; a level with at most one tile uses
the inline tag value fields of its directory record.  (The source
additionally asserts `tile_index == 0` in the inline branches; the model
keeps the computation total.) -/
def CogBuilder.offset_size_locations (b : CogBuilder) (level tile_index : Nat) : Nat × Nat :=
  if 1 < b.tile_counts.getD level 0 then
    let offset_location := b.tile_counts.length * 1024
      + (b.tile_counts.take level).sum * 16 + tile_index * 8
    (offset_location, offset_location + b.tile_counts.getD level 0 * 8)
  else if level = 0 then
    (16 + 8 + OFFSETS_TAG_INDEX * 20 + 12, 16 + 8 + LENGTHS_TAG_INDEX * 20 + 12)
  else
    (1024 * level + 8 + OFFSETS_TAG_INDEX * 20 + 12, 1024 * level + 8 + LENGTHS_TAG_INDEX * 20 + 12)

/-- `CogBuilder::valid_mask`: read the level's `tile_count` offset integers
starting at the slot-0 offset location; an entry is valid iff its offset
differs from the Unwritten sentinel 1. -/
def CogBuilder.valid_mask (b : CogBuilder) (f : FileState) (level : Nat) : List Bool :=
  (List.range (b.tile_counts.getD level 0)).map
    (fun i => decide (readU64 f ((b.offset_size_locations level 0).1 + 8 * i) ≠ 1))

/-- The three file mutations of `CogBuilder::write_tile`, in source order:
append the payload at the tracked end of file, then write the slot's 8-byte
size field, then write the slot's 8-byte offset field (each followed by a
flush in the source). -/
def CogBuilder.writeTileSteps (b : CogBuilder) (level index : Nat) (tile : List Nat) :
    List (Nat × List Nat) :=
  [(b.file_size, tile),
   ((b.offset_size_locations level index).2, toLE64 tile.length),
   ((b.offset_size_locations level index).1, toLE64 b.file_size)]

/-- Apply a sequence of positioned writes in order. -/
def applyWrites (f : FileState) (ws : List (Nat × List Nat)) : FileState :=
  ws.foldl (fun g w => writeBytesAt g w.1 w.2) f

/-- `CogBuilder::write_tile`: `assert_eq!(self.file_size, file_end)` (modelled
as `none` on violation), perform the three writes of `writeTileSteps`, and
advance the tracked file size by the payload length. -/
def CogBuilder.write_tile (b : CogBuilder) (f : FileState) (level index : Nat)
    (tile : List Nat) : Option (CogBuilder × FileState) :=
  if b.file_size = f.size then
    some ({ b with file_size := b.file_size + tile.length },
          applyWrites f (b.writeTileSteps level index tile))
  else none

/-- `CogBuilder::write_nodata_tile`: write 0 into the slot's offset field;
the size field is not touched and no payload is appended. -/
def CogBuilder.write_nodata_tile (b : CogBuilder) (f : FileState) (level index : Nat) :
    FileState :=
  writeBytesAt f (b.offset_size_locations level index).1 (toLE64 0)

/-- `CogBuilder::read_tile`: `none` for an out-of-range index, otherwise read
the slot's size then offset; a size of 0 is `none`, otherwise return exactly
`size` bytes read from `offset`. -/
def CogBuilder.read_tile (b : CogBuilder) (f : FileState) (level index : Nat) :
    Option (List Nat) :=
  if b.tile_counts.getD level 0 ≤ index then none
  else if readU64 f (b.offset_size_locations level index).2 = 0 then none
  else some (readBytesAt f (readU64 f (b.offset_size_locations level index).1)
    (readU64 f (b.offset_size_locations level index).2))

/-- Dummy builder, used only as an `Option.getD` default below. -/
def noBuilder : CogBuilder := ⟨[], [], [], 0⟩

/-- The concrete container state obtained by creating a 1×1 single-channel
image over an empty file; used to instantiate the general theorems at a
concrete input. -/
def demo1 : CogBuilder × FileState :=
  (CogBuilder.new 1 1 [8] false emptyFile).getD (noBuilder, emptyFile)

/-- The demo container state after writing one single-byte tile `[42]` into
slot (0, 0); used to instantiate the reopen theorem at a populated store. -/
def demo1w : CogBuilder × FileState :=
  (demo1.1.write_tile demo1.2 0 0 [42]).getD (noBuilder, emptyFile)

/-- Total size of the header + directory region plus the external offset/size
tables: `1024 * level_count + 16 * total_tiles`. -/
def fullRegionSize (b : CogBuilder) : Nat :=
  1024 * b.tile_counts.length + 16 * b.tile_counts.sum

/-- Start of the directory record of a level inside the container: byte 16
for level 0 (after the header), byte `1024 * level` otherwise. -/
def ifdStart (level : Nat) : Nat := if level = 0 then 16 else 1024 * level

/-- The container states reachable by creating a container on a file whose
prior content is smaller than the directory region (in particular an empty
file) and then performing in-range tile writes and nodata writes. -/
inductive Reachable (w h : Nat) (bpp : List Nat) (signed : Bool) :
    CogBuilder → FileState → Prop where
  | init (f b f' : _) (hsmall : f.size < 1024 * (pyramidTileCounts w h).length)
      (hnew : CogBuilder.new w h bpp signed f = some (b, f')) : Reachable w h bpp signed b f'
  | wtile (b f b' f' : _) (level index : Nat) (tile : List Nat)
      (hre : Reachable w h bpp signed b f)
      (hlevel : level < b.tile_counts.length)
      (hindex : index < b.tile_counts.getD level 0)
      (hw : b.write_tile f level index tile = some (b', f')) : Reachable w h bpp signed b' f'
  | wnodata (b f : _) (level index : Nat)
      (hre : Reachable w h bpp signed b f)
      (hlevel : level < b.tile_counts.length)
      (hindex : index < b.tile_counts.getD level 0) :
      Reachable w h bpp signed b (b.write_nodata_tile f level index)

/-- The directory region of `f` holds exactly the encoding of the geometry
with inline single-tile pair `(o, s)`. -/
def regionEncodes (w h : Nat) (bpp : List Nat) (signed : Bool) (f : FileState)
    (o s : Nat) : Prop :=
  ∀ i, i < 1024 * (pyramidTileCounts w h).length →
    f.bytes i = (encodeData (pyramidDims w h) (pyramidTileCounts w h) bpp signed (o, s)).getD i 0

/-- The standing invariant of a populated container: the builder carries the
geometry derived from `(w, h)`, its tracked size matches the file length,
the file covers the whole header + table region, and the directory region is
an encoding for some inline pair (the sentinel pair when no level is
single-tile). -/
def StoreInv (w h : Nat) (bpp : List Nat) (signed : Bool) (b : CogBuilder) (f : FileState) : Prop :=
  b.widths = (pyramidDims w h).map Prod.fst ∧
  b.heights = (pyramidDims w h).map Prod.snd ∧
  b.tile_counts = pyramidTileCounts w h ∧
  b.file_size = f.size ∧
  1024 * (pyramidTileCounts w h).length + 16 * (pyramidTileCounts w h).sum ≤ f.size ∧
  (pyramidDims w h).any (fun d => 2 ^ 32 ≤ tileCount d.1 d.2) = false ∧
  bpp.length ≠ 0 ∧ bpp.length ≤ 8 ∧
  ∃ o s, regionEncodes w h bpp signed f o s ∧
    ((pyramidTileCounts w h).all (fun tc => tc ≠ 1) → o = 1 ∧ s = 0)

/-! ### Basic byte-store lemmas -/

theorem toLE64_length (v : Nat) : (toLE64 v).length = 8 := rfl

theorem toLE16_length (v : Nat) : (toLE16 v).length = 2 := rfl

theorem pow64_eq : (2 : Nat) ^ 64 = 18446744073709551616 := by norm_num

theorem fromLE_toLE64 (v : Nat) : fromLEBytes (toLE64 v) = v % 2 ^ 64 := by
  rw [pow64_eq]; simp [toLE64, fromLEBytes]; omega

theorem toLE64_mod (v : Nat) : toLE64 (v % 2 ^ 64) = toLE64 v := by
  rw [pow64_eq]; simp only [toLE64, List.cons.injEq, and_true]
  omega

theorem writeBytesAt_bytes (f : FileState) (p : Nat) (d : List Nat) (i : Nat) :
    (writeBytesAt f p d).bytes i =
      if p ≤ i ∧ i < p + d.length then d.getD (i - p) 0 else f.bytes i := rfl

theorem writeBytesAt_size (f : FileState) (p : Nat) (d : List Nat) :
    (writeBytesAt f p d).size = max f.size (p + d.length) := rfl

theorem writeBytesAt_bytes_outside (f : FileState) (p : Nat) (d : List Nat) (i : Nat)
    (h : i < p ∨ p + d.length ≤ i) : (writeBytesAt f p d).bytes i = f.bytes i := by
  rw [writeBytesAt_bytes, if_neg]; omega

theorem writeBytesAt_bytes_inside (f : FileState) (p : Nat) (d : List Nat) (i : Nat)
    (h1 : p ≤ i) (h2 : i < p + d.length) :
    (writeBytesAt f p d).bytes i = d.getD (i - p) 0 := by
  rw [writeBytesAt_bytes, if_pos ⟨h1, h2⟩]

theorem readBytesAt_length (f : FileState) (p n : Nat) : (readBytesAt f p n).length = n := by
  simp [readBytesAt]

theorem readBytesAt_congr {f g : FileState} {pos n : Nat}
    (h : ∀ i, i < n → f.bytes (pos + i) = g.bytes (pos + i)) :
    readBytesAt f pos n = readBytesAt g pos n :=
  List.map_congr_left fun i hi => h i (List.mem_range.mp hi)

theorem readU64_congr {f g : FileState} {pos : Nat}
    (h : ∀ i, i < 8 → f.bytes (pos + i) = g.bytes (pos + i)) : readU64 f pos = readU64 g pos := by
  unfold readU64; rw [readBytesAt_congr h]

theorem readBytesAt_write_self (f : FileState) (p : Nat) (d : List Nat) :
    readBytesAt (writeBytesAt f p d) p d.length = d := by
  apply List.ext_getElem (by simp [readBytesAt])
  intro i h1 h2
  simp only [readBytesAt, List.getElem_map, List.getElem_range]
  rw [writeBytesAt_bytes_inside _ _ _ _ (by omega) (by omega)]
  rw [show p + i - p = i by omega]
  exact List.getD_eq_getElem d 0 h2

theorem readBytesAt_write_outside (f : FileState) (p : Nat) (d : List Nat) (pos n : Nat)
    (h : pos + n ≤ p ∨ p + d.length ≤ pos) :
    readBytesAt (writeBytesAt f p d) pos n = readBytesAt f pos n :=
  readBytesAt_congr fun i hi => writeBytesAt_bytes_outside _ _ _ _ (by omega)

theorem readU64_write_outside (f : FileState) (p : Nat) (d : List Nat) (pos : Nat)
    (h : pos + 8 ≤ p ∨ p + d.length ≤ pos) :
    readU64 (writeBytesAt f p d) pos = readU64 f pos :=
  readU64_congr fun i hi => writeBytesAt_bytes_outside _ _ _ _ (by omega)

theorem readU64_write_toLE64 (f : FileState) (p v : Nat) :
    readU64 (writeBytesAt f p (toLE64 v)) p = v % 2 ^ 64 := by
  have h := readBytesAt_write_self f p (toLE64 v)
  rw [toLE64_length] at h
  rw [readU64, h, fromLE_toLE64]

theorem readU64_write_within (f : FileState) (p : Nat) (d : List Nat) (pos : Nat)
    (h1 : p ≤ pos) (h2 : pos + 8 ≤ p + d.length) :
    readU64 (writeBytesAt f p d) pos = u64At d (pos - p) := by
  unfold readU64 u64At readBytesAt
  congr 1
  apply List.map_congr_left
  intro i hi
  have hi8 : i < 8 := List.mem_range.mp hi
  rw [writeBytesAt_bytes_inside _ _ _ _ (by omega) (by omega)]
  congr 1
  omega

theorem getD_map_range {α : Type} (g : Nat → α) (n i : Nat) (d : α) (h : i < n) :
    ((List.range n).map g).getD i d = g i := by
  rw [List.getD_eq_getElem _ _ (by simpa using h)]
  simp

/-! ### Locations and mask lemmas -/

theorem valid_mask_getD (b : CogBuilder) (f : FileState) (level i : Nat) (d : Bool)
    (h : i < b.tile_counts.getD level 0) :
    (b.valid_mask f level).getD i d =
      decide (readU64 f ((b.offset_size_locations level 0).1 + 8 * i) ≠ 1) := by
  unfold CogBuilder.valid_mask
  exact getD_map_range _ _ _ _ h

theorem sum_take_getD_le (l : List Nat) (k : Nat) (h : k < l.length) :
    (l.take k).sum + l.getD k 0 ≤ l.sum := by
  induction l generalizing k with
  | nil => simp at h
  | cons a t ih =>
    cases k with
    | zero => simp
    | succ k =>
      have := ih k (by simpa using h)
      simp only [List.take_succ_cons, List.sum_cons, List.getD_cons_succ]
      omega

theorem osl_offset_entry (b : CogBuilder) (level idx : Nat)
    (hi : idx < b.tile_counts.getD level 0) :
    (b.offset_size_locations level 0).1 + 8 * idx = (b.offset_size_locations level idx).1 := by
  unfold CogBuilder.offset_size_locations
  by_cases htc : 1 < b.tile_counts.getD level 0
  · simp only [if_pos htc]; omega
  · have : idx = 0 := by omega
    subst this
    simp only [if_neg htc]
    split <;> omega

theorem osl_bounds (b : CogBuilder) (level idx : Nat) (hl : level < b.tile_counts.length)
    (hi : idx < b.tile_counts.getD level 0) :
    (b.offset_size_locations level idx).1 + 8 ≤ (b.offset_size_locations level idx).2 ∧
    (b.offset_size_locations level idx).2 + 8 ≤ fullRegionSize b := by
  unfold CogBuilder.offset_size_locations fullRegionSize
  by_cases htc : 1 < b.tile_counts.getD level 0
  · simp only [if_pos htc]
    have hsum := sum_take_getD_le b.tile_counts level hl
    constructor
    · omega
    · omega
  · simp only [if_neg htc]
    have hL : 1 ≤ b.tile_counts.length := by omega
    by_cases h0 : level = 0
    · subst h0
      simp only [reduceIte, OFFSETS_TAG_INDEX, LENGTHS_TAG_INDEX]
      omega
    · simp only [if_neg h0, OFFSETS_TAG_INDEX, LENGTHS_TAG_INDEX]
      have hlev : level + 1 ≤ b.tile_counts.length := hl
      have h1 : 1024 * (level + 1) ≤ 1024 * b.tile_counts.length := by omega
      omega

/-! ### Pyramid geometry lemmas -/

theorem pyramidAux_length_pos (fuel w h : Nat) (hf : 0 < fuel) :
    0 < (pyramidAux fuel w h).length := by
  cases fuel with
  | zero => omega
  | succ n =>
    rw [pyramidAux]
    split <;> simp

theorem pyramidAux_getD_zero (fuel w h : Nat) (hf : 0 < fuel) :
    (pyramidAux fuel w h).getD 0 (0, 0) = (w, h) := by
  cases fuel with
  | zero => omega
  | succ n =>
    rw [pyramidAux]
    split <;> simp

theorem pyramidAux_getD_succ (fuel w h k : Nat) (hfuel : w + h < fuel)
    (hk : k + 1 < (pyramidAux fuel w h).length) :
    (pyramidAux fuel w h).getD (k + 1) (0, 0) =
      ((((pyramidAux fuel w h).getD k (0, 0)).1 + 1) / 2,
       (((pyramidAux fuel w h).getD k (0, 0)).2 + 1) / 2) := by
  induction fuel generalizing w h k with
  | zero => omega
  | succ n ih =>
    by_cases hg : w ≤ TILE_SIZE ∧ h ≤ TILE_SIZE
    · simp [pyramidAux, hg] at hk
    · simp only [pyramidAux, if_neg hg] at hk ⊢
      have hwh : TILE_SIZE < w ∨ TILE_SIZE < h := by
        rcases Nat.lt_or_ge TILE_SIZE w with h1 | h1
        · exact Or.inl h1
        · exact Or.inr (by omega)
      have hfuel' : (w + 1) / 2 + (h + 1) / 2 < n := by
        simp only [TILE_SIZE] at hwh
        omega
      cases k with
      | zero =>
        simp only [List.getD_cons_succ, List.getD_cons_zero]
        have hn : 0 < n := by omega
        exact pyramidAux_getD_zero n _ _ hn
      | succ k =>
        simp only [List.getD_cons_succ]
        apply ih _ _ _ hfuel'
        simp only [List.length_cons] at hk
        omega

theorem pyramidAux_mid (fuel w h k : Nat) (hfuel : w + h < fuel)
    (hk : k + 1 < (pyramidAux fuel w h).length) :
    TILE_SIZE < ((pyramidAux fuel w h).getD k (0, 0)).1 ∨
    TILE_SIZE < ((pyramidAux fuel w h).getD k (0, 0)).2 := by
  induction fuel generalizing w h k with
  | zero => omega
  | succ n ih
  =>
    by_cases hg : w ≤ TILE_SIZE ∧ h ≤ TILE_SIZE
    · simp [pyramidAux, hg] at hk
    · simp only [pyramidAux, if_neg hg] at hk ⊢
      have hwh : TILE_SIZE < w ∨ TILE_SIZE < h := by
        rcases Nat.lt_or_ge TILE_SIZE w with h1 | h1
        · exact Or.inl h1
        · exact Or.inr (by omega)
      cases k with
      | zero => simpa using hwh
      | succ k =>
        simp only [List.getD_cons_succ]
        apply ih
        · simp only [TILE_SIZE] at hwh
          omega
        · simp only [List.length_cons] at hk
          omega

theorem pyramidAux_last (fuel w h : Nat) (hfuel : w + h < fuel) :
    (let l := pyramidAux fuel w h
     ((l.getD (l.length - 1) (0, 0)).1 ≤ TILE_SIZE ∧
      (l.getD (l.length - 1) (0, 0)).2 ≤ TILE_SIZE)) := by
  induction fuel generalizing w h with
  | zero => omega
  | succ n ih =>
    by_cases hg : w ≤ TILE_SIZE ∧ h ≤ TILE_SIZE
    · simp [pyramidAux, hg]
    · simp only [pyramidAux, if_neg hg]
      have hwh : TILE_SIZE < w ∨ TILE_SIZE < h := by
        rcases Nat.lt_or_ge TILE_SIZE w with h1 | h1
        · exact Or.inl h1
        · exact Or.inr (by omega)
      have hfuel' : (w + 1) / 2 + (h + 1) / 2 < n := by
        simp only [TILE_SIZE] at hwh
        omega
      have hpos := pyramidAux_length_pos n ((w + 1) / 2) ((h + 1) / 2) (by omega)
      have hres := ih ((w + 1) / 2) ((h + 1) / 2) hfuel'
      simp only at hres ⊢
      simp only [List.length_cons]
      obtain ⟨m, hm⟩ : ∃ m, (pyramidAux n ((w + 1) / 2) ((h + 1) / 2)).length = m + 1 :=
        ⟨_, (Nat.succ_pred_eq_of_pos hpos).symm⟩
      rw [hm] at hres ⊢
      simpa [List.getD_cons_succ] using hres

theorem pyramidDims_length_pos (w h : Nat) : 0 < (pyramidDims w h).length :=
  pyramidAux_length_pos _ _ _ (by omega)

theorem pyramidDims_getD_zero (w h : Nat) : (pyramidDims w h).getD 0 (0, 0) = (w, h) :=
  pyramidAux_getD_zero _ _ _ (by omega)

theorem pyramidDims_getD_succ (w h k : Nat) (hk : k + 1 < (pyramidDims w h).length) :
    (pyramidDims w h).getD (k + 1) (0, 0) =
      ((((pyramidDims w h).getD k (0, 0)).1 + 1) / 2,
       (((pyramidDims w h).getD k (0, 0)).2 + 1) / 2) :=
  pyramidAux_getD_succ _ _ _ _ (by omega) hk

theorem pyramidDims_mid (w h k : Nat) (hk : k + 1 < (pyramidDims w h).length) :
    TILE_SIZE < ((pyramidDims w h).getD k (0, 0)).1 ∨
    TILE_SIZE < ((pyramidDims w h).getD k (0, 0)).2 :=
  pyramidAux_mid _ _ _ _ (by omega) hk

theorem pyramidDims_last (w h : Nat) :
    ((pyramidDims w h).getD ((pyramidDims w h).length - 1) (0, 0)).1 ≤ TILE_SIZE ∧
    ((pyramidDims w h).getD ((pyramidDims w h).length - 1) (0, 0)).2 ≤ TILE_SIZE :=
  pyramidAux_last _ _ _ (by omega)

theorem pyramidTileCounts_getD (w h k : Nat) (hk : k < (pyramidDims w h).length) :
    (pyramidTileCounts w h).getD k 0 =
      tileCount ((pyramidDims w h).getD k (0, 0)).1 ((pyramidDims w h).getD k (0, 0)).2 := by
  unfold pyramidTileCounts
  rw [List.getD_eq_getElem _ _ (by simpa using hk), List.getElem_map]
  rw [List.getD_eq_getElem _ _ hk]

/-! ### C6, C7, C8, C10 -/

theorem tilesAcross32_eq (d : Nat) (hd : d + TILE_SIZE < 2 ^ 32) :
    tilesAcross32 d = (d + TILE_SIZE - 1) / TILE_SIZE := by
  unfold tilesAcross32 pred32 add32
  rw [Nat.mod_eq_of_lt hd]
  rw [show d + TILE_SIZE + 2 ^ 32 - 1 = d + TILE_SIZE - 1 + 2 ^ 32 by
    unfold TILE_SIZE; omega]
  rw [Nat.add_mod_right]
  rw [Nat.mod_eq_of_lt (by omega)]

theorem halve32_eq (d : Nat) (hd : d + 1 < 2 ^ 32) : halve32 d = (d + 1) / 2 := by
  unfold halve32 add32
  rw [Nat.mod_eq_of_lt hd]

theorem tileCount32_eq (w h : Nat) (hw : w + TILE_SIZE < 2 ^ 32)
    (hh : h + TILE_SIZE < 2 ^ 32) : tileCount32 w h = tileCount w h := by
  unfold tileCount32 tileCount
  rw [tilesAcross32_eq w hw, tilesAcross32_eq h hh]

theorem pyramidAux32_eq (fuel : Nat) : ∀ w h, w + TILE_SIZE < 2 ^ 32 →
    h + TILE_SIZE < 2 ^ 32 → pyramidAux32 fuel w h = pyramidAux fuel w h := by
  induction fuel with
  | zero =>
    intro w h _ _
    rfl
  | succ fuel ih =>
    intro w h hw hh
    rw [pyramidAux32, pyramidAux]
    have hT : (0 : Nat) < TILE_SIZE := by unfold TILE_SIZE; omega
    by_cases hstop : w ≤ TILE_SIZE ∧ h ≤ TILE_SIZE
    · rw [if_pos hstop, if_pos hstop]
    · rw [if_neg hstop, if_neg hstop]
      rw [halve32_eq w (by omega), halve32_eq h (by omega)]
      rw [ih ((w + 1) / 2) ((h + 1) / 2) (by omega) (by omega)]

theorem pyramidAux_dims_le (fuel : Nat) : ∀ w h d, d ∈ pyramidAux fuel w h →
    d.1 ≤ w ∧ d.2 ≤ h := by
  induction fuel with
  | zero =>
    intro w h d hd
    simp [pyramidAux] at hd
  | succ fuel ih =>
    intro w h d hd
    rw [pyramidAux] at hd
    by_cases hstop : w ≤ TILE_SIZE ∧ h ≤ TILE_SIZE
    · rw [if_pos hstop] at hd
      rw [List.mem_singleton] at hd
      subst hd
      exact ⟨Nat.le_refl _, Nat.le_refl _⟩
    · rw [if_neg hstop] at hd
      rcases List.mem_cons.mp hd with hd | hd
      · subst hd
        exact ⟨Nat.le_refl _, Nat.le_refl _⟩
      · have := ih ((w + 1) / 2) ((h + 1) / 2) d hd
        omega

theorem pyramidDims32_eq (w h : Nat) (hw : w + TILE_SIZE < 2 ^ 32)
    (hh : h + TILE_SIZE < 2 ^ 32) : pyramidDims32 w h = pyramidDims w h :=
  pyramidAux32_eq (w + h + 1) w h hw hh

theorem pyramidTileCounts32_eq (w h : Nat) (hw : w + TILE_SIZE < 2 ^ 32)
    (hh : h + TILE_SIZE < 2 ^ 32) : pyramidTileCounts32 w h = pyramidTileCounts w h := by
  unfold pyramidTileCounts32 pyramidTileCounts
  rw [pyramidDims32_eq w h hw hh]
  apply List.map_congr_left
  intro d hd
  have hle := pyramidAux_dims_le (w + h + 1) w h d hd
  exact tileCount32_eq d.1 d.2 (by omega) (by omega)

set_option maxRecDepth 10000 in
/-- Counterexample for C6 as stated: at base width `4294967295 = 2^32 - 1` the
source's `u32` additions wrap (and panic in debug builds): level 1 of the
derived pyramid is `(0, 1)` instead of the ceiling-half `(2147483648, 1)`, and
the level-0 tile count computes to 0 instead of
`ceil(4294967295/1024) * ceil(1/1024) = 4194304`. -/
theorem claim6_pyramid_geometry_counterexample :
    pyramidDims32 4294967295 1 = [(4294967295, 1), (0, 1)] ∧
    (pyramidDims32 4294967295 1).getD 1 (0, 0) ≠
      ((((pyramidDims32 4294967295 1).getD 0 (0, 0)).1 + 1) / 2,
       (((pyramidDims32 4294967295 1).getD 0 (0, 0)).2 + 1) / 2) ∧
    tileCount32 4294967295 1 = 0 ∧
    (4294967295 + TILE_SIZE - 1) / TILE_SIZE * ((1 + TILE_SIZE - 1) / TILE_SIZE)
      = 4194304 := by
  refine ⟨rfl, by decide, rfl, by decide⟩

/-- C6 (amended): for every base `(width, height)` whose dimensions are small
enough that no `u32` addition in the derivation overflows
(`width + 1024 < 2 ^ 32` and `height + 1024 < 2 ^ 32`), the pyramid the `u32`
program derives coincides with the idealised one and has level-0 dimensions
`(width, height)`; each subsequent level's dimensions are the ceiling-halves
of the previous level's; levels continue while either dimension exceeds the
tile edge and stop at the first level with both dimensions at most the tile
edge; each level's tile count is `ceil(w/1024) * ceil(h/1024)`.  A 4096×4096
image yields exactly three levels of sizes 4096, 2048, 1024 with tile counts
16, 4, 1, and level 2 stores its offset/size inline in its directory record.
(Beyond that bound the additions wrap in release builds and panic in debug
builds, violating the original universal claim.) -/
theorem claim6_pyramid_geometry (w h : Nat) (hw : w + TILE_SIZE < 2 ^ 32)
    (hh : h + TILE_SIZE < 2 ^ 32) :
    pyramidDims32 w h = pyramidDims w h ∧
    pyramidTileCounts32 w h = pyramidTileCounts w h ∧
    (pyramidDims32 w h).getD 0 (0, 0) = (w, h) ∧
    (∀ k, k + 1 < (pyramidDims32 w h).length →
      (pyramidDims32 w h).getD (k + 1) (0, 0) =
        ((((pyramidDims32 w h).getD k (0, 0)).1 + 1) / 2,
         (((pyramidDims32 w h).getD k (0, 0)).2 + 1) / 2)) ∧
    (∀ k, k + 1 < (pyramidDims32 w h).length →
      TILE_SIZE < ((pyramidDims32 w h).getD k (0, 0)).1 ∨
      TILE_SIZE < ((pyramidDims32 w h).getD k (0, 0)).2) ∧
    (((pyramidDims32 w h).getD ((pyramidDims32 w h).length - 1) (0, 0)).1 ≤ TILE_SIZE ∧
     ((pyramidDims32 w h).getD ((pyramidDims32 w h).length - 1) (0, 0)).2 ≤ TILE_SIZE) ∧
    (∀ k, k < (pyramidDims32 w h).length →
      (pyramidTileCounts32 w h).getD k 0 =
        (((pyramidDims32 w h).getD k (0, 0)).1 + TILE_SIZE - 1) / TILE_SIZE *
          ((((pyramidDims32 w h).getD k (0, 0)).2 + TILE_SIZE - 1) / TILE_SIZE)) ∧
    pyramidDims32 4096 4096 = [(4096, 4096), (2048, 2048), (1024, 1024)] ∧
    pyramidTileCounts32 4096 4096 = [16, 4, 1] ∧
    (∀ b : CogBuilder, b.tile_counts = pyramidTileCounts32 4096 4096 →
      b.offset_size_locations 2 0 = (1024 * 2 + 8 + OFFSETS_TAG_INDEX * 20 + 12,
                                     1024 * 2 + 8 + LENGTHS_TAG_INDEX * 20 + 12)) := by
  have hde := pyramidDims32_eq w h hw hh
  have hte := pyramidTileCounts32_eq w h hw hh
  rw [hde, hte]
  refine ⟨rfl, rfl, pyramidDims_getD_zero w h, pyramidDims_getD_succ w h,
    pyramidDims_mid w h, pyramidDims_last w h, ?_, by decide, by decide, ?_⟩
  · intro k hk
    rw [pyramidTileCounts_getD w h k hk]
    rfl
  · intro b hb
    unfold CogBuilder.offset_size_locations
    rw [hb]
    decide

/-- Witness for C6 (amended): at the concrete base 4096×4096 the overflow
bounds hold and level 1 of the derived pyramid has dimensions 2048×2048. -/
theorem claim6_pyramid_geometry_witness :
    4096 + TILE_SIZE < 2 ^ 32 ∧ (pyramidDims32 4096 4096).getD 1 (0, 0) = (2048, 2048) := by
  obtain ⟨hde, hte, hz, hsucc, hmid, hlast, htc, h4096d, h4096t, hinline⟩ :=
    claim6_pyramid_geometry 4096 4096 (by decide) (by decide)
  refine ⟨by decide, ?_⟩
  rw [h4096d]
  decide

/-- C7: for a level with more than one tile, a slot's offset integer lives at
`1024 * level_count + 16 * (sum of earlier tile counts) + 8 * tile_index` and
its size integer 8 × tile_count bytes later; for a level with tile count 1
both live inline in that level's directory record at
`directory start + 8 + tag_index * 20 + 12` for tag indices 9 and 10. -/
theorem claim7_offset_size_locations (b : CogBuilder) (level idx : Nat)
    (hlevel : level < b.tile_counts.length) :
    (1 < b.tile_counts.getD level 0 →
      b.offset_size_locations level idx =
        (1024 * b.tile_counts.length + 16 * (b.tile_counts.take level).sum + 8 * idx,
         1024 * b.tile_counts.length + 16 * (b.tile_counts.take level).sum + 8 * idx
           + 8 * b.tile_counts.getD level 0)) ∧
    (b.tile_counts.getD level 0 = 1 →
      b.offset_size_locations level 0 =
        (ifdStart level + 8 + OFFSETS_TAG_INDEX * 20 + 12,
         ifdStart level + 8 + LENGTHS_TAG_INDEX * 20 + 12)) := by
  constructor
  · intro htc
    unfold CogBuilder.offset_size_locations
    rw [if_pos htc]
    simp only [Prod.mk.injEq]
    omega
  · intro htc
    unfold CogBuilder.offset_size_locations ifdStart
    rw [if_neg (by omega)]
    by_cases h0 : level = 0
    · subst h0
      simp
    · rw [if_neg h0, if_neg h0]

/-- Witness for C7: on the 4096×4096 geometry, slot (0, 5) of level 0 lives at
offset location 3072 + 40 with size location 128 bytes later, and level 2's
single slot is inline at bytes 2248/2268. -/
theorem claim7_offset_size_locations_witness :
    (CogBuilder.mk [4096, 2048, 1024] [4096, 2048, 1024] [16, 4, 1] 0).offset_size_locations
        0 5 = (3072 + 40, 3072 + 40 + 128) ∧
    (CogBuilder.mk [4096, 2048, 1024] [4096, 2048, 1024] [16, 4, 1] 0).offset_size_locations
        2 0 = (2248, 2268) := by
  constructor
  · have h := (claim7_offset_size_locations
      (CogBuilder.mk [4096, 2048, 1024] [4096, 2048, 1024] [16, 4, 1] 0) 0 5
      (by decide)).1 (by decide)
    rw [h]
    decide
  · have h := (claim7_offset_size_locations
      (CogBuilder.mk [4096, 2048, 1024] [4096, 2048, 1024] [16, 4, 1] 0) 2 0
      (by decide)).2 (by decide)
    rw [h]
    decide

/-- C8: `read_tile` returns `none` without fault for an out-of-range index and
whenever the stored size integer is 0; otherwise it returns exactly the stored
size's worth of bytes read from the stored offset. -/
theorem claim8_read_tile_cases (b : CogBuilder) (f : FileState) (level index : Nat) :
    (b.tile_counts.getD level 0 ≤ index → b.read_tile f level index = none) ∧
    (index < b.tile_counts.getD level 0 →
      readU64 f (b.offset_size_locations level index).2 = 0 →
      b.read_tile f level index = none) ∧
    (index < b.tile_counts.getD level 0 →
      readU64 f (b.offset_size_locations level index).2 ≠ 0 →
      b.read_tile f level index =
        some (readBytesAt f (readU64 f (b.offset_size_locations level index).1)
          (readU64 f (b.offset_size_locations level index).2))) := by
  refine ⟨fun hge => ?_, fun hlt hz => ?_, fun hlt hnz => ?_⟩
  · unfold CogBuilder.read_tile
    rw [if_pos hge]
  · unfold CogBuilder.read_tile
    rw [if_neg (by omega), if_pos hz]
  · unfold CogBuilder.read_tile
    rw [if_neg (by omega), if_neg hnz]

/-- Witness for C8: on a one-tile builder over an empty file, the out-of-range
index 1 reads as absent, and slot 0 (stored size 0 on the all-zero file) also
reads as absent. -/
theorem claim8_read_tile_cases_witness :
    (CogBuilder.mk [1024] [1024] [1] 1040).read_tile emptyFile 0 1 = none ∧
    (CogBuilder.mk [1024] [1024] [1] 1040).read_tile emptyFile 0 0 = none := by
  constructor
  · exact (claim8_read_tile_cases (CogBuilder.mk [1024] [1024] [1] 1040)
      emptyFile 0 1).1 (by decide)
  · exact (claim8_read_tile_cases (CogBuilder.mk [1024] [1024] [1] 1040)
      emptyFile 0 0).2.1 (by decide) (by decide)

/-- C10: `write_tile`, `write_nodata_tile` and `valid_mask` perform no
in-range check on the tile index, and for every level with more than one tile
the first out-of-range index `tile_count` has its offset location exactly at
the same level's size-array start — slot 0's size integer — so a nodata write
at that index silently zeroes slot 0's size and a previously written tile 0
reads back as absent, while `read_tile` itself rejects the same index. -/
theorem claim10_out_of_range_write_aliasing (b : CogBuilder) (level : Nat)
    (hlevel : level < b.tile_counts.length) (htc : 1 < b.tile_counts.getD level 0) :
    ∃ index, b.tile_counts.getD level 0 ≤ index ∧
      (b.offset_size_locations level index).1 = (b.offset_size_locations level 0).2 ∧
      (∀ f, b.read_tile (b.write_nodata_tile f level index) level 0 = none) ∧
      (∀ f, b.read_tile f level index = none) := by
  have halias : (b.offset_size_locations level (b.tile_counts.getD level 0)).1 =
      (b.offset_size_locations level 0).2 := by
    unfold CogBuilder.offset_size_locations
    rw [if_pos htc, if_pos htc]
    simp only
    omega
  refine ⟨b.tile_counts.getD level 0, le_refl _, halias, fun f => ?_, fun f => ?_⟩
  · unfold CogBuilder.read_tile CogBuilder.write_nodata_tile
    rw [if_neg (by omega), halias, readU64_write_toLE64, if_pos (by norm_num)]
  · unfold CogBuilder.read_tile
    rw [if_pos (le_refl _)]

/-- Witness for C10: on the 4096×4096 geometry, level 1 (4 tiles) admits the
out-of-range index 4 whose offset location aliases slot 0's size location. -/
theorem claim10_out_of_range_write_aliasing_witness :
    ∃ index, (4 : Nat) ≤ index ∧
      ((CogBuilder.mk [4096, 2048, 1024] [4096, 2048, 1024] [16, 4, 1] 0).offset_size_locations
          1 index).1
        = ((CogBuilder.mk [4096, 2048, 1024] [4096, 2048, 1024] [16, 4, 1] 0).offset_size_locations
          1 0).2 ∧
      (∀ f, (CogBuilder.mk [4096, 2048, 1024] [4096, 2048, 1024] [16, 4, 1] 0).read_tile
          ((CogBuilder.mk [4096, 2048, 1024] [4096, 2048, 1024] [16, 4, 1] 0).write_nodata_tile
            f 1 index) 1 0 = none) ∧
      (∀ f, (CogBuilder.mk [4096, 2048, 1024] [4096, 2048, 1024] [16, 4, 1] 0).read_tile
          f 1 index = none) :=
  claim10_out_of_range_write_aliasing
    (CogBuilder.mk [4096, 2048, 1024] [4096, 2048, 1024] [16, 4, 1] 0) 1
    (by decide) (by decide)

/-! ### C3: write ordering, precondition, postcondition -/

/-- C3: `write_tile` performs its file mutations in source order — append the
payload at the tracked end of file, then the slot's size field, then the
slot's offset field — it faults exactly when the tracked `file_size` differs
from the file's actual length, it advances `file_size` by the payload length,
and after any interrupted strict prefix of the three writes an initially
Unwritten slot's offset still reads as the sentinel 1 and the slot is still
reported invalid by `valid_mask`. -/
theorem claim3_write_tile_ordering (b : CogBuilder) (f : FileState) (level index : Nat)
    (tile : List Nat) (hlevel : level < b.tile_counts.length)
    (hindex : index < b.tile_counts.getD level 0)
    (hreg : fullRegionSize b ≤ b.file_size)
    (hsent : readU64 f (b.offset_size_locations level index).1 = 1) :
    ((b.write_tile f level index tile).isSome ↔ b.file_size = f.size) ∧
    (b.file_size = f.size →
      b.write_tile f level index tile =
        some ({ b with file_size := b.file_size + tile.length },
              applyWrites f (b.writeTileSteps level index tile)) ∧
      ({ b with file_size := b.file_size + tile.length} : CogBuilder).file_size
        = b.file_size + tile.length ∧
      ∀ k, k < 3 →
        readU64 (applyWrites f ((b.writeTileSteps level index tile).take k))
            (b.offset_size_locations level index).1 = 1 ∧
          (b.valid_mask (applyWrites f ((b.writeTileSteps level index tile).take k))
            level).getD index true = false) := by
  have hosl := osl_bounds b level index hlevel hindex
  have hentry := osl_offset_entry b level index hindex
  constructor
  · by_cases h : b.file_size = f.size <;> simp [CogBuilder.write_tile, h]
  · intro heq
    refine ⟨by rw [CogBuilder.write_tile, if_pos heq], rfl, ?_⟩
    intro k hk
    have hmask : ∀ g : FileState, readU64 g (b.offset_size_locations level index).1 = 1 →
        (b.valid_mask g level).getD index true = false := by
      intro g hg
      rw [valid_mask_getD b g level index true hindex, hentry, hg]
      simp
    interval_cases k
    · exact ⟨hsent, hmask f hsent⟩
    · have h1 : readU64 (applyWrites f ((b.writeTileSteps level index tile).take 1))
          (b.offset_size_locations level index).1 = 1 := by
        simp only [CogBuilder.writeTileSteps, List.take, applyWrites, List.foldl]
        rw [readU64_write_outside _ _ _ _ (by omega)]
        exact hsent
      exact ⟨h1, hmask _ h1⟩
    · have h1 : readU64 (applyWrites f ((b.writeTileSteps level index tile).take 2))
          (b.offset_size_locations level index).1 = 1 := by
        simp only [CogBuilder.writeTileSteps, List.take, applyWrites, List.foldl]
        rw [readU64_write_outside _ _ _ _ (by rw [toLE64_length]; omega)]
        rw [readU64_write_outside _ _ _ _ (by omega)]
        exact hsent
      exact ⟨h1, hmask _ h1⟩

set_option maxRecDepth 10000 in
set_option maxHeartbeats 2000000 in
/-- Witness for C3: concrete instantiation on the container freshly created
over an empty file for a 1×1 image, writing a one-byte tile into slot (0,0). -/
theorem claim3_write_tile_ordering_witness :
    CogBuilder.new 1 1 [8] false emptyFile = some (demo1.1, demo1.2) ∧
    ((demo1.1.write_tile demo1.2 0 0 [42]).isSome ↔ demo1.1.file_size = demo1.2.size) ∧
    (demo1.1.valid_mask (applyWrites demo1.2 ((demo1.1.writeTileSteps 0 0 [42]).take 2))
      0).getD 0 true = false := by
  have h := claim3_write_tile_ordering demo1.1 demo1.2 0 0 [42] (by decide) (by decide)
    (by decide) (by decide)
  exact ⟨rfl, h.1, ((h.2 (by decide)).2.2 2 (by norm_num)).2⟩

/-! ### C2 (corrected): write/read round-trip -/

set_option maxRecDepth 10000 in
set_option maxHeartbeats 2000000 in
/-- Counterexample for C2 as stated: for the empty byte sequence, `write_tile`
succeeds (recording size 0) but `read_tile` then returns absent rather than
`Some([])`, because a stored size of 0 is indistinguishable from an unwritten
slot. -/
theorem claim2_write_read_roundtrip_counterexample :
    CogBuilder.new 1 1 [8] false emptyFile = some (demo1.1, demo1.2) ∧
    ∃ b1 f1, demo1.1.write_tile demo1.2 0 0 [] = some (b1, f1) ∧
      b1.read_tile f1 0 0 = none ∧ some ([] : List Nat) ≠ none := by
  exact ⟨rfl, _, _, rfl, by decide, by decide⟩

/-- C2 (amended): for every level, in-range index and NON-EMPTY byte sequence
`tile` (with `u64`-representable sizes), immediately after
`write_tile level index tile` succeeds, `valid_mask level` reports the slot
valid and `read_tile level index` returns exactly `some tile`. -/
theorem claim2_write_read_roundtrip (b : CogBuilder) (f : FileState) (level index : Nat)
    (tile : List Nat) (hlevel : level < b.tile_counts.length)
    (hindex : index < b.tile_counts.getD level 0)
    (hreg : fullRegionSize b ≤ b.file_size)
    (heq : b.file_size = f.size) (hne : tile ≠ [])
    (hlen : tile.length < 2 ^ 64) (hfs : b.file_size < 2 ^ 64) :
    ∃ b' f', b.write_tile f level index tile = some (b', f') ∧
      (b'.valid_mask f' level).getD index false = true ∧
      b'.read_tile f' level index = some tile := by
  have hosl := osl_bounds b level index hlevel hindex
  have hentry := osl_offset_entry b level index hindex
  have hL : 1 ≤ b.tile_counts.length := by omega
  have h1024 : 1024 ≤ b.file_size := by
    unfold fullRegionSize at hreg
    omega
  have hlen0 : tile.length ≠ 0 := fun hz => hne (List.eq_nil_of_length_eq_zero hz)
  refine ⟨_, _, by rw [CogBuilder.write_tile, if_pos heq], ?_, ?_⟩
  · have hread : readU64 (applyWrites f (b.writeTileSteps level index tile))
        (b.offset_size_locations level index).1 = b.file_size := by
      simp only [CogBuilder.writeTileSteps, applyWrites, List.foldl]
      rw [readU64_write_toLE64, Nat.mod_eq_of_lt hfs]
    have htc : ({ b with file_size := b.file_size + tile.length } : CogBuilder).tile_counts
        = b.tile_counts := rfl
    have hmask := valid_mask_getD { b with file_size := b.file_size + tile.length }
      (applyWrites f (b.writeTileSteps level index tile)) level index false (by rw [htc]; exact hindex)
    rw [hmask]
    have hosl' : ({ b with file_size := b.file_size + tile.length } : CogBuilder).offset_size_locations
        level 0 = b.offset_size_locations level 0 := rfl
    rw [hosl', hentry, hread]
    simp
    omega
  · have hosl' : ∀ i j, ({ b with file_size := b.file_size + tile.length } : CogBuilder).offset_size_locations
        i j = b.offset_size_locations i j := fun _ _ => rfl
    have hsize : readU64 (applyWrites f (b.writeTileSteps level index tile))
        (b.offset_size_locations level index).2 = tile.length := by
      simp only [CogBuilder.writeTileSteps, applyWrites, List.foldl]
      rw [readU64_write_outside _ _ _ _ (by rw [toLE64_length]; omega)]
      rw [readU64_write_toLE64, Nat.mod_eq_of_lt hlen]
    have hoffset : readU64 (applyWrites f (b.writeTileSteps level index tile))
        (b.offset_size_locations level index).1 = b.file_size := by
      simp only [CogBuilder.writeTileSteps, applyWrites, List.foldl]
      rw [readU64_write_toLE64, Nat.mod_eq_of_lt hfs]
    rw [CogBuilder.read_tile]
    rw [if_neg (by rw [show ({ b with file_size := b.file_size + tile.length } : CogBuilder).tile_counts
        = b.tile_counts from rfl]; omega)]
    rw [hosl', hsize, hoffset, if_neg hlen0]
    have hrb : readBytesAt (applyWrites f (b.writeTileSteps level index tile))
        b.file_size tile.length = tile := by
      simp only [CogBuilder.writeTileSteps, applyWrites, List.foldl]
      rw [readBytesAt_write_outside _ _ _ _ _ (by rw [toLE64_length]; omega)]
      rw [readBytesAt_write_outside _ _ _ _ _ (by rw [toLE64_length]; omega)]
      exact readBytesAt_write_self f b.file_size tile
    rw [hrb]

set_option maxRecDepth 10000 in
set_option maxHeartbeats 2000000 in
/-- Witness for C2 (amended): on the fresh 1×1 container, writing the one-byte
tile `[42]` into slot (0, 0) makes the slot valid and reads back `[42]`. -/
theorem claim2_write_read_roundtrip_witness :
    CogBuilder.new 1 1 [8] false emptyFile = some (demo1.1, demo1.2) ∧
    ∃ b' f', demo1.1.write_tile demo1.2 0 0 [42] = some (b', f') ∧
      (b'.valid_mask f' 0).getD 0 false = true ∧
      b'.read_tile f' 0 0 = some [42] :=
  ⟨rfl, claim2_write_read_roundtrip demo1.1 demo1.2 0 0 [42] (by decide) (by decide)
    (by decide) (by decide) (by decide) (by decide) (by decide)⟩

/-! ### C4 (corrected): nodata writes -/

set_option maxRecDepth 10000 in
set_option maxHeartbeats 2000000 in
/-- Counterexample for C4 as stated: on a slot that was previously written
(stored size 1), `write_nodata_tile` sets the offset to 0 but the stale size
stays 1, so `read_tile` does not return absent — it returns one byte read
from offset 0 (the header byte 73). -/
theorem claim4_nodata_counterexample :
    CogBuilder.new 1 1 [8] false emptyFile = some (demo1.1, demo1.2) ∧
    ∃ b1 f1, demo1.1.write_tile demo1.2 0 0 [42] = some (b1, f1) ∧
      b1.read_tile (b1.write_nodata_tile f1 0 0) 0 0 = some [73] ∧
      some [73] ≠ (none : Option (List Nat)) := by
  exact ⟨rfl, _, _, rfl, by decide, by decide⟩

/-- C4 (amended): for every level and in-range index whose slot's stored size
is 0 (Unwritten or already Explicitly-empty), after `write_nodata_tile` the
slot's offset field is 0, every byte outside that 8-byte offset field — in
particular the size field — is untouched, the file length is unchanged (no
payload appended), `valid_mask` reports the slot valid, and `read_tile`
returns absent. -/
theorem claim4_nodata (b : CogBuilder) (f : FileState) (level index : Nat)
    (hlevel : level < b.tile_counts.length)
    (hindex : index < b.tile_counts.getD level 0)
    (hreg : fullRegionSize b ≤ f.size)
    (hsize0 : readU64 f (b.offset_size_locations level index).2 = 0) :
    readU64 (b.write_nodata_tile f level index) (b.offset_size_locations level index).1 = 0 ∧
    (∀ i, i < (b.offset_size_locations level index).1 ∨
        (b.offset_size_locations level index).1 + 8 ≤ i →
      (b.write_nodata_tile f level index).bytes i = f.bytes i) ∧
    (b.write_nodata_tile f level index).size = f.size ∧
    (b.valid_mask (b.write_nodata_tile f level index) level).getD index false = true ∧
    b.read_tile (b.write_nodata_tile f level index) level index = none := by
  have hosl := osl_bounds b level index hlevel hindex
  have hentry := osl_offset_entry b level index hindex
  have hzero : readU64 (b.write_nodata_tile f level index)
      (b.offset_size_locations level index).1 = 0 := by
    unfold CogBuilder.write_nodata_tile
    rw [readU64_write_toLE64]
    norm_num
  refine ⟨hzero, ?_, ?_, ?_, ?_⟩
  · intro i hi
    unfold CogBuilder.write_nodata_tile
    exact writeBytesAt_bytes_outside _ _ _ _ (by rw [toLE64_length]; omega)
  · unfold CogBuilder.write_nodata_tile
    rw [writeBytesAt_size, toLE64_length]
    omega
  · rw [valid_mask_getD _ _ _ _ _ hindex, hentry, hzero]
    simp
  · rw [CogBuilder.read_tile, if_neg (by omega)]
    have hs : readU64 (b.write_nodata_tile f level index)
        (b.offset_size_locations level index).2 = 0 := by
      unfold CogBuilder.write_nodata_tile
      rw [readU64_write_outside _ _ _ _ (by rw [toLE64_length]; omega)]
      exact hsize0
    rw [hs, if_pos rfl]

set_option maxRecDepth 10000 in
set_option maxHeartbeats 2000000 in
/-- Witness for C4 (amended): on the fresh 1×1 container (slot Unwritten,
size 0), a nodata write to slot (0,0) makes the slot valid and reading it
returns absent. -/
theorem claim4_nodata_witness :
    CogBuilder.new 1 1 [8] false emptyFile = some (demo1.1, demo1.2) ∧
    (demo1.1.valid_mask (demo1.1.write_nodata_tile demo1.2 0 0) 0).getD 0 false = true ∧
    demo1.1.read_tile (demo1.1.write_nodata_tile demo1.2 0 0) 0 0 = none := by
  have h := claim4_nodata demo1.1 demo1.2 0 0 (by decide) (by decide) (by decide) (by decide)
  exact ⟨rfl, h.2.2.2.1, h.2.2.2.2⟩

/-! ### Encoding length lemmas and C9 -/

theorem bpsValue_length (bpp : List Nat) (hb : bpp.length ≤ 8) : (bpsValue bpp).length = 8 := by
  simp [bpsValue]
  omega

theorem tagEntry_length (id typ count : Nat) (value : List Nat) (hv : value.length = 8) :
    (tagEntry id typ count value).length = 20 := by
  simp [tagEntry, toLE16, toLE64, hv]

theorem ifdEntries_length_each (level w h : Nat) (bpp : List Nat) (signed : Bool)
    (tc io : Nat) (single : Nat × Nat) (hb : bpp.length ≤ 8) :
    ∀ e ∈ ifdEntries level w h bpp signed tc io single, e.length = 20 := by
  intro e he
  simp only [ifdEntries, List.mem_cons, List.not_mem_nil, or_false] at he
  rcases he with rfl | rfl | rfl | rfl | rfl | rfl | rfl | rfl | rfl | rfl | rfl | rfl <;>
    first
      | exact tagEntry_length _ _ _ _ (toLE64_length _)
      | exact tagEntry_length _ _ _ _ (bpsValue_length bpp hb)

theorem length_flatten_of_uniform {α : Type} (bs : List (List α)) (n : Nat)
    (h : ∀ x ∈ bs, x.length = n) : bs.flatten.length = bs.length * n := by
  induction bs with
  | nil => simp
  | cons a t ih =>
    simp only [List.flatten_cons, List.length_append, List.length_cons]
    rw [h a (List.mem_cons_self a t), ih (fun x hx => h x (List.mem_cons_of_mem _ hx))]
    ring

theorem ifdBytes_length (L level w h : Nat) (bpp : List Nat) (signed : Bool)
    (tc io : Nat) (single : Nat × Nat) (hb : bpp.length ≤ 8) :
    (ifdBytes L level w h bpp signed tc io single).length = 256 := by
  unfold ifdBytes
  rw [List.length_append, List.length_append,
    length_flatten_of_uniform _ 20 (ifdEntries_length_each level w h bpp signed tc io single hb)]
  simp [ifdEntries, toLE64_length]

theorem ifdOversized_false (dims : List (Nat × Nat)) (tcs : List Nat) (bpp : List Nat)
    (signed : Bool) (single : Nat × Nat) (hb : bpp.length ≤ 8) :
    ifdOversized dims tcs bpp signed single = false := by
  unfold ifdOversized
  rw [List.any_eq_false]
  intro x hx
  simp [ifdBytes_length _ _ _ _ _ _ _ _ _ hb]

theorem getD_replicate_zero (n a i : Nat) (h : i < n) :
    (List.replicate n a).getD i 0 = a := by
  rw [List.getD_eq_getElem _ _ (by simpa using h)]
  simp

theorem headerBytes_length : headerBytes.length = 16 := rfl

theorem slot_getD_generic (pre mid post : List Nat) (r : Nat) (hr : r < mid.length) :
    (pre ++ mid ++ post).getD (pre.length + r) 0 = mid.getD r 0 := by
  rw [List.getD_append _ _ _ _ (by rw [List.length_append]; omega)]
  rw [List.getD_append_right _ _ _ _ (by omega)]
  rw [Nat.add_sub_cancel_left]

theorem flatten_getD_uniform (bs : List (List Nat)) (n : Nat)
    (h : ∀ x ∈ bs, x.length = n) (k r : Nat) (hk : k < bs.length) (hr : r < n) :
    bs.flatten.getD (n * k + r) 0 = (bs.getD k []).getD r 0 := by
  induction bs generalizing k with
  | nil => simp at hk
  | cons a t ih =>
    have ha : a.length = n := h a (List.mem_cons_self a t)
    cases k with
    | zero =>
      simp only [List.flatten_cons, Nat.mul_zero, Nat.zero_add, List.getD_cons_zero]
      rw [List.getD_append _ _ _ _ (by omega)]
    | succ k =>
      simp only [List.flatten_cons, List.getD_cons_succ]
      rw [show n * (k + 1) + r = a.length + (n * k + r) by rw [ha]; ring]
      rw [List.getD_append_right _ _ _ _ (by omega)]
      rw [Nat.add_sub_cancel_left]
      exact ih (fun x hx => h x (List.mem_cons_of_mem _ hx)) k (by simpa using hk)

theorem levelSlot_length (dims : List (Nat × Nat)) (tcs : List Nat) (bpp : List Nat)
    (signed : Bool) (single : Nat × Nat) (level : Nat) (hb : bpp.length ≤ 8) :
    (levelSlot dims tcs bpp signed single level).length = 1024 := by
  have hlen := ifdBytes_length tcs.length level (dims.getD level (0, 0)).1
    (dims.getD level (0, 0)).2 bpp signed (tcs.getD level 0)
    (1024 * tcs.length + 16 * (tcs.take level).sum) single hb
  unfold levelSlot slotBytes
  by_cases h0 : level = 0
  · rw [if_pos h0, List.length_append, List.length_append, hlen, headerBytes_length,
      List.length_replicate]
  · rw [if_neg h0, List.length_append, hlen, List.length_replicate]

theorem encodeData_length (dims : List (Nat × Nat)) (tcs : List Nat) (bpp : List Nat)
    (signed : Bool) (single : Nat × Nat) (hb : bpp.length ≤ 8) :
    (encodeData dims tcs bpp signed single).length = 1024 * tcs.length := by
  unfold encodeData
  rw [length_flatten_of_uniform _ 1024 ?_]
  · simp [Nat.mul_comm]
  · intro x hx
    obtain ⟨i, _, rfl⟩ := List.mem_map.mp hx
    exact levelSlot_length dims tcs bpp signed single i hb

theorem encodeData_getD (dims : List (Nat × Nat)) (tcs : List Nat) (bpp : List Nat)
    (signed : Bool) (single : Nat × Nat) (hb : bpp.length ≤ 8) (level r : Nat)
    (hlevel : level < tcs.length) (hr : r < 1024) :
    (encodeData dims tcs bpp signed single).getD (1024 * level + r) 0 =
      (levelSlot dims tcs bpp signed single level).getD r 0 := by
  unfold encodeData
  rw [flatten_getD_uniform _ 1024 ?_ level r (by simpa using hlevel) hr]
  · rw [getD_map_range _ _ _ _ hlevel]
  · intro x hx
    obtain ⟨i, _, rfl⟩ := List.mem_map.mp hx
    exact levelSlot_length dims tcs bpp signed single i hb

theorem levelSlot_getD_ifd (dims : List (Nat × Nat)) (tcs : List Nat) (bpp : List Nat)
    (signed : Bool) (single : Nat × Nat) (level r : Nat) (hb : bpp.length ≤ 8)
    (hr : r < 256) :
    (levelSlot dims tcs bpp signed single level).getD ((if level = 0 then 16 else 0) + r) 0 =
      (ifdBytes tcs.length level (dims.getD level (0, 0)).1 (dims.getD level (0, 0)).2 bpp
        signed (tcs.getD level 0) (1024 * tcs.length + 16 * (tcs.take level).sum)
        single).getD r 0 := by
  have hlen := ifdBytes_length tcs.length level (dims.getD level (0, 0)).1
    (dims.getD level (0, 0)).2 bpp signed (tcs.getD level 0)
    (1024 * tcs.length + 16 * (tcs.take level).sum) single hb
  unfold levelSlot slotBytes
  by_cases h0 : level = 0
  · rw [if_pos h0, if_pos h0]
    rw [show (16 : Nat) + r = headerBytes.length + r from rfl]
    rw [slot_getD_generic _ _ _ _ (by rw [hlen]; omega)]
  · rw [if_neg h0, if_neg h0]
    rw [Nat.zero_add]
    rw [List.getD_append _ _ _ _ (by rw [hlen]; omega)]

theorem encodeData_getD_ifd (dims : List (Nat × Nat)) (tcs : List Nat) (bpp : List Nat)
    (signed : Bool) (single : Nat × Nat) (level r : Nat) (hb : bpp.length ≤ 8)
    (hlevel : level < tcs.length) (hr : r < 256) :
    (encodeData dims tcs bpp signed single).getD (ifdStart level + r) 0 =
      (ifdBytes tcs.length level (dims.getD level (0, 0)).1 (dims.getD level (0, 0)).2 bpp
        signed (tcs.getD level 0) (1024 * tcs.length + 16 * (tcs.take level).sum)
        single).getD r 0 := by
  have h1 : ifdStart level + r = 1024 * level + ((if level = 0 then 16 else 0) + r) := by
    unfold ifdStart
    by_cases h0 : level = 0 <;> simp [h0]
  rw [h1, encodeData_getD dims tcs bpp signed single hb level _ hlevel (by split <;> omega)]
  exact levelSlot_getD_ifd dims tcs bpp signed single level r hb hr

theorem ifdBytes_getD_entry (L level w h : Nat) (bpp : List Nat) (signed : Bool)
    (tc io : Nat) (single : Nat × Nat) (hb : bpp.length ≤ 8) (t k : Nat)
    (ht : t < 12) (hk : k < 20) :
    (ifdBytes L level w h bpp signed tc io single).getD (8 + 20 * t + k) 0 =
      ((ifdEntries level w h bpp signed tc io single).getD t []).getD k 0 := by
  have hflat : (ifdEntries level w h bpp signed tc io single).flatten.length = 240 := by
    rw [length_flatten_of_uniform _ 20 (ifdEntries_length_each level w h bpp signed tc io
      single hb)]
    rw [show (ifdEntries level w h bpp signed tc io single).length = 12 from rfl]
  unfold ifdBytes
  rw [show 8 + 20 * t + k = (toLE64 NUM_TAGS).length + (20 * t + k) by
    rw [toLE64_length]; omega]
  rw [slot_getD_generic _ _ _ _ (by rw [hflat]; omega)]
  exact flatten_getD_uniform _ 20
    (ifdEntries_length_each level w h bpp signed tc io single hb) t k
    (by rw [show (ifdEntries level w h bpp signed tc io single).length = 12 from rfl]; omega)
    hk

theorem tagEntry_getD_value (id typ count : Nat) (value : List Nat) (k : Nat)
    (hk : k < 8) (hv : value.length = 8) :
    (tagEntry id typ count value).getD (12 + k) 0 = value.getD k 0 := by
  have h12 : (toLE16 id ++ toLE16 typ ++ toLE64 count).length = 12 := by
    rw [List.length_append, List.length_append, toLE16_length, toLE16_length, toLE64_length]
  unfold tagEntry
  rw [List.getD_append_right _ _ _ _ (by rw [h12]; omega)]
  rw [show 12 + k - (toLE16 id ++ toLE16 typ ++ toLE64 count).length = k by rw [h12]; omega]

theorem ifdEntries_getD_nine (level w h : Nat) (bpp : List Nat) (signed : Bool)
    (tc io : Nat) (single : Nat × Nat) :
    (ifdEntries level w h bpp signed tc io single).getD 9 [] =
      tagEntry 0x144 16 tc (toLE64 (if 1 < tc then io else single.1)) := rfl

theorem ifdEntries_getD_ten (level w h : Nat) (bpp : List Nat) (signed : Bool)
    (tc io : Nat) (single : Nat × Nat) :
    (ifdEntries level w h bpp signed tc io single).getD 10 [] =
      tagEntry 0x145 16 tc (toLE64 (if 1 < tc then io + tc * 8 else single.2)) := rfl

theorem readU64_eq_of_bytes (f : FileState) (pos v : Nat)
    (h : ∀ i, i < 8 → f.bytes (pos + i) = (toLE64 v).getD i 0) :
    readU64 f pos = v % 2 ^ 64 := by
  unfold readU64 readBytesAt
  rw [List.map_congr_left (fun i hi => h i (List.mem_range.mp hi))]
  rw [show (List.range 8).map (fun i => (toLE64 v).getD i 0) = toLE64 v from rfl]
  exact fromLE_toLE64 v

/-! ### Sentinel-table lemmas -/

theorem tableVals_length (tcs : List Nat) : (tableVals tcs).length = 2 * tcs.sum := by
  induction tcs with
  | nil => simp [tableVals]
  | cons a t ih =>
    simp only [tableVals, List.map_cons, List.flatten_cons, List.length_append,
      List.length_replicate, List.sum_cons] at ih ⊢
    omega

theorem tableVals_getD_offset (tcs : List Nat) (level idx : Nat)
    (hlevel : level < tcs.length) (hidx : idx < tcs.getD level 0) :
    (tableVals tcs).getD (2 * (tcs.take level).sum + idx) 0 = 1 := by
  induction tcs generalizing level with
  | nil => simp at hlevel
  | cons a t ih =>
    cases level with
    | zero =>
      simp only [List.getD_cons_zero] at hidx
      simp only [tableVals, List.map_cons, List.flatten_cons, List.take_zero,
        List.sum_nil, Nat.mul_zero, Nat.zero_add]
      rw [List.getD_append _ _ _ _
        (by rw [List.length_append, List.length_replicate, List.length_replicate]; omega)]
      rw [List.getD_append _ _ _ _ (by rw [List.length_replicate]; omega)]
      exact getD_replicate_zero a 1 idx hidx
    | succ level =>
      simp only [List.getD_cons_succ] at hidx
      simp only [tableVals, List.map_cons, List.flatten_cons, List.take_succ_cons,
        List.sum_cons]
      rw [show 2 * (a + (List.take level t).sum) + idx
        = (List.replicate a 1 ++ List.replicate a 0).length
          + (2 * (List.take level t).sum + idx) by
        rw [List.length_append, List.length_replicate, List.length_replicate]; omega]
      rw [List.getD_append_right _ _ _ _ (by omega)]
      rw [Nat.add_sub_cancel_left]
      exact ih level (by simpa using hlevel) hidx

theorem tableVals_getD_size (tcs : List Nat) (level idx : Nat)
    (hlevel : level < tcs.length) (hidx : idx < tcs.getD level 0) :
    (tableVals tcs).getD (2 * (tcs.take level).sum + tcs.getD level 0 + idx) 0 = 0 := by
  induction tcs generalizing level with
  | nil => simp at hlevel
  | cons a t ih =>
    cases level with
    | zero =>
      simp only [List.getD_cons_zero] at hidx ⊢
      simp only [tableVals, List.map_cons, List.flatten_cons, List.take_zero,
        List.sum_nil, Nat.mul_zero, Nat.zero_add]
      rw [List.getD_append _ _ _ _
        (by rw [List.length_append, List.length_replicate, List.length_replicate]; omega)]
      rw [List.getD_append_right _ _ _ _ (by rw [List.length_replicate]; omega)]
      rw [show a + idx - (List.replicate a 1).length = idx by rw [List.length_replicate]; omega]
      exact getD_replicate_zero a 0 idx hidx
    | succ level =>
      simp only [List.getD_cons_succ] at hidx ⊢
      simp only [tableVals, List.map_cons, List.flatten_cons, List.take_succ_cons,
        List.sum_cons]
      rw [show 2 * (a + (List.take level t).sum) + t.getD level 0 + idx
        = (List.replicate a 1 ++ List.replicate a 0).length
          + (2 * (List.take level t).sum + t.getD level 0 + idx) by
        rw [List.length_append, List.length_replicate, List.length_replicate]; omega]
      rw [List.getD_append_right _ _ _ _ (by omega)]
      rw [Nat.add_sub_cancel_left]
      exact ih level (by simpa using hlevel) hidx

theorem map_toLE64_flatten_u64At (vs : List Nat) (j : Nat) (hj : j < vs.length) :
    u64At ((vs.map toLE64).flatten) (8 * j) = vs.getD j 0 % 2 ^ 64 := by
  unfold u64At
  have hb : ∀ i, i < 8 → ((vs.map toLE64).flatten).getD (8 * j + i) 0 =
      (toLE64 (vs.getD j 0)).getD i 0 := by
    intro i hi
    rw [flatten_getD_uniform _ 8 ?_ j i (by simpa using hj) hi]
    · have hmap : (vs.map toLE64).getD j [] = toLE64 (vs.getD j 0) := by
        rw [List.getD_eq_getElem (vs.map toLE64) [] (by simpa using hj)]
        rw [List.getElem_map]
        rw [List.getD_eq_getElem vs 0 hj]
      rw [hmap]
    · intro x hx
      obtain ⟨v, _, rfl⟩ := List.mem_map.mp hx
      exact toLE64_length v
  rw [List.map_congr_left (fun i hi => hb i (List.mem_range.mp hi))]
  rw [show (List.range 8).map (fun i => (toLE64 (vs.getD j 0)).getD i 0)
    = toLE64 (vs.getD j 0) from rfl]
  exact fromLE_toLE64 _

/-! ### Helper forms of offset_size_locations and inline directory reads -/

theorem osl_multi (b : CogBuilder) (level idx : Nat)
    (htc : 1 < b.tile_counts.getD level 0) :
    b.offset_size_locations level idx =
      (b.tile_counts.length * 1024 + (b.tile_counts.take level).sum * 16 + idx * 8,
       b.tile_counts.length * 1024 + (b.tile_counts.take level).sum * 16 + idx * 8
         + b.tile_counts.getD level 0 * 8) := by
  unfold CogBuilder.offset_size_locations
  rw [if_pos htc]

theorem osl_inline (b : CogBuilder) (level idx : Nat)
    (htc : ¬ 1 < b.tile_counts.getD level 0) :
    b.offset_size_locations level idx = (ifdStart level + 200, ifdStart level + 220) := by
  unfold CogBuilder.offset_size_locations ifdStart
  rw [if_neg htc]
  by_cases h0 : level = 0
  · rw [if_pos h0, if_pos h0]
    norm_num [OFFSETS_TAG_INDEX, LENGTHS_TAG_INDEX]
  · rw [if_neg h0, if_neg h0]
    norm_num [OFFSETS_TAG_INDEX, LENGTHS_TAG_INDEX]

theorem ifdStart_bound (level L : Nat) (h : level < L) : ifdStart level + 256 ≤ 1024 * L := by
  unfold ifdStart
  by_cases h0 : level = 0
  · rw [if_pos h0]
    have h1 : 1 ≤ L := by omega
    have h2 : 1024 * 1 ≤ 1024 * L := Nat.mul_le_mul_left _ h1
    omega
  · rw [if_neg h0]
    have h1 : level + 1 ≤ L := h
    have h2 : 1024 * (level + 1) ≤ 1024 * L := Nat.mul_le_mul_left _ h1
    omega

theorem tableBytes_length (tcs : List Nat) : (tableBytes tcs).length = 16 * tcs.sum := by
  unfold tableBytes
  rw [length_flatten_of_uniform _ 8 ?_]
  · rw [List.length_map, tableVals_length]
    ring
  · intro x hx
    obtain ⟨v, _, rfl⟩ := List.mem_map.mp hx
    exact toLE64_length v

theorem encodeData_u64At_inline_offset (dims : List (Nat × Nat)) (tcs : List Nat)
    (bpp : List Nat) (signed : Bool) (single : Nat × Nat) (hb : bpp.length ≤ 8)
    (level : Nat) (hlevel : level < tcs.length) (htc : ¬ 1 < tcs.getD level 0) :
    u64At (encodeData dims tcs bpp signed single) (ifdStart level + 200) = single.1 % 2 ^ 64 := by
  unfold u64At
  have hbyte : ∀ i, i < 8 →
      (encodeData dims tcs bpp signed single).getD (ifdStart level + 200 + i) 0 =
        (toLE64 single.1).getD i 0 := by
    intro i hi
    rw [show ifdStart level + 200 + i = ifdStart level + (200 + i) by omega]
    rw [encodeData_getD_ifd dims tcs bpp signed single level (200 + i) hb hlevel (by omega)]
    rw [show 200 + i = 8 + 20 * 9 + (12 + i) by omega]
    rw [ifdBytes_getD_entry _ _ _ _ _ _ _ _ _ hb 9 (12 + i) (by omega) (by omega)]
    rw [ifdEntries_getD_nine]
    rw [tagEntry_getD_value _ _ _ _ i hi (toLE64_length _)]
    rw [if_neg htc]
  rw [List.map_congr_left (fun i hi => hbyte i (List.mem_range.mp hi))]
  rw [show (List.range 8).map (fun i => (toLE64 single.1).getD i 0) = toLE64 single.1 from rfl]
  exact fromLE_toLE64 _

theorem encodeData_u64At_inline_size (dims : List (Nat × Nat)) (tcs : List Nat)
    (bpp : List Nat) (signed : Bool) (single : Nat × Nat) (hb : bpp.length ≤ 8)
    (level : Nat) (hlevel : level < tcs.length) (htc : ¬ 1 < tcs.getD level 0) :
    u64At (encodeData dims tcs bpp signed single) (ifdStart level + 220) = single.2 % 2 ^ 64 := by
  unfold u64At
  have hbyte : ∀ i, i < 8 →
      (encodeData dims tcs bpp signed single).getD (ifdStart level + 220 + i) 0 =
        (toLE64 single.2).getD i 0 := by
    intro i hi
    rw [show ifdStart level + 220 + i = ifdStart level + (220 + i) by omega]
    rw [encodeData_getD_ifd dims tcs bpp signed single level (220 + i) hb hlevel (by omega)]
    rw [show 220 + i = 8 + 20 * 10 + (12 + i) by omega]
    rw [ifdBytes_getD_entry _ _ _ _ _ _ _ _ _ hb 10 (12 + i) (by omega) (by omega)]
    rw [ifdEntries_getD_ten]
    rw [tagEntry_getD_value _ _ _ _ i hi (toLE64_length _)]
    rw [if_neg htc]
  rw [List.map_congr_left (fun i hi => hbyte i (List.mem_range.mp hi))]
  rw [show (List.range 8).map (fun i => (toLE64 single.2).getD i 0) = toLE64 single.2 from rfl]
  exact fromLE_toLE64 _

/-! ### A freshly initialized store has every slot at the Unwritten sentinel -/

theorem fresh_store_level (dims : List (Nat × Nat)) (tcs : List Nat) (bpp : List Nat)
    (signed : Bool) (f : FileState) (b : CogBuilder) (hbw : b.tile_counts = tcs)
    (hb8 : bpp.length ≤ 8) (level : Nat) (hlevel : level < tcs.length) :
    (∀ idx, idx < tcs.getD level 0 →
      readU64 (writeBytesAt (writeBytesAt f 0 (encodeData dims tcs bpp signed (1, 0)))
          (1024 * tcs.length) (tableBytes tcs)) (b.offset_size_locations level idx).1 = 1 ∧
      readU64 (writeBytesAt (writeBytesAt f 0 (encodeData dims tcs bpp signed (1, 0)))
          (1024 * tcs.length) (tableBytes tcs)) (b.offset_size_locations level idx).2 = 0) ∧
    b.valid_mask (writeBytesAt (writeBytesAt f 0 (encodeData dims tcs bpp signed (1, 0)))
        (1024 * tcs.length) (tableBytes tcs)) level
      = List.replicate (tcs.getD level 0) false := by
  have hsum := sum_take_getD_le tcs level hlevel
  have htblen : (tableBytes tcs).length = 16 * tcs.sum := tableBytes_length tcs
  have hdlen := encodeData_length dims tcs bpp signed (1, 0) hb8
  have hslots : ∀ idx, idx < tcs.getD level 0 →
      readU64 (writeBytesAt (writeBytesAt f 0 (encodeData dims tcs bpp signed (1, 0)))
          (1024 * tcs.length) (tableBytes tcs)) (b.offset_size_locations level idx).1 = 1 ∧
      readU64 (writeBytesAt (writeBytesAt f 0 (encodeData dims tcs bpp signed (1, 0)))
          (1024 * tcs.length) (tableBytes tcs)) (b.offset_size_locations level idx).2 = 0 := by
    intro idx hidx
    by_cases htc : 1 < tcs.getD level 0
    · rw [osl_multi b level idx (by rw [hbw]; exact htc), hbw]
      constructor
      · rw [readU64_write_within _ _ _ _ (by omega) (by rw [htblen]; omega)]
        rw [show tcs.length * 1024 + (tcs.take level).sum * 16 + idx * 8 - 1024 * tcs.length
          = 8 * (2 * (tcs.take level).sum + idx) by omega]
        rw [show tableBytes tcs = ((tableVals tcs).map toLE64).flatten from rfl]
        rw [map_toLE64_flatten_u64At _ _ (by rw [tableVals_length]; omega)]
        rw [tableVals_getD_offset tcs level idx hlevel hidx]
        decide
      · rw [readU64_write_within _ _ _ _ (by omega) (by rw [htblen]; omega)]
        rw [show tcs.length * 1024 + (tcs.take level).sum * 16 + idx * 8
            + tcs.getD level 0 * 8 - 1024 * tcs.length
          = 8 * (2 * (tcs.take level).sum + tcs.getD level 0 + idx) by omega]
        rw [show tableBytes tcs = ((tableVals tcs).map toLE64).flatten from rfl]
        rw [map_toLE64_flatten_u64At _ _ (by rw [tableVals_length]; omega)]
        rw [tableVals_getD_size tcs level idx hlevel hidx]
        decide
    · have hbound := ifdStart_bound level tcs.length hlevel
      rw [osl_inline b level idx (by rw [hbw]; omega)]
      have hout : ∀ pos, pos + 8 ≤ 1024 * tcs.length →
          readU64 (writeBytesAt (writeBytesAt f 0 (encodeData dims tcs bpp signed (1, 0)))
            (1024 * tcs.length) (tableBytes tcs)) pos
          = u64At (encodeData dims tcs bpp signed (1, 0)) pos := by
        intro pos hpos
        rw [readU64_write_outside _ _ _ _ (by omega)]
        rw [readU64_write_within _ _ _ _ (by omega) (by rw [hdlen]; omega)]
        rw [Nat.sub_zero]
      constructor
      · rw [hout _ (by omega)]
        rw [encodeData_u64At_inline_offset dims tcs bpp signed (1, 0) hb8 level hlevel htc]
        decide
      · rw [hout _ (by omega)]
        rw [encodeData_u64At_inline_size dims tcs bpp signed (1, 0) hb8 level hlevel htc]
        decide
  refine ⟨hslots, ?_⟩
  rw [List.eq_replicate_iff]
  constructor
  · unfold CogBuilder.valid_mask
    rw [List.length_map, List.length_range, hbw]
  · intro x hx
    unfold CogBuilder.valid_mask at hx
    obtain ⟨i, hi, rfl⟩ := List.mem_map.mp hx
    have hi' : i < b.tile_counts.getD level 0 := List.mem_range.mp hi
    rw [osl_offset_entry b level i hi']
    rw [(hslots i (by rw [← hbw]; exact hi')).1]
    simp

/-! ### C5 (corrected): freshly created containers -/

set_option maxRecDepth 10000 in
set_option maxHeartbeats 4000000 in
/-- Counterexample for C5 as stated: prior content of 2056 bytes is smaller
than the header+table region (2128 bytes for a 2048×2048 image) but larger
than the header+directory region (2048 bytes), so the old bytes at positions
2048..2055 survive as slot (0,0)'s offset entry (here the value 7 instead of
the sentinel 1), and `valid_mask` reports slot (0,0) as valid on the freshly
reopened container. -/
theorem claim5_fresh_container_counterexample :
    ∃ b f', CogBuilder.new 2048 2048 [8] false
        ⟨fun i => if i < 2048 then 0 else (toLE64 7).getD (i - 2048) 0, 2056⟩ = some (b, f') ∧
      2056 < 1024 * b.tile_counts.length + 16 * b.tile_counts.sum ∧
      0 < b.tile_counts.getD 0 0 ∧
      (b.offset_size_locations 0 0).1 = 2048 ∧
      readU64 f' 2048 = 7 ∧
      (b.valid_mask f' 0).getD 0 false = true := by
  refine ⟨_, _, rfl, by decide, by decide, by decide, ?_, ?_⟩
  · split
    · rw [readU64_write_outside _ _ _ _
        (Or.inl (le_trans (by decide) (Nat.le_max_left _ _)))]
      rw [readU64_write_outside _ _ _ _ (Or.inr (by
        rw [Nat.zero_add, encodeData_length _ _ _ _ _
          (by norm_num : ([8] : List Nat).length ≤ 8)]
        decide))]
      decide
    · rename_i hcond
      exact absurd (by decide) hcond
  · rw [valid_mask_getD _ _ _ _ _ (by decide)]
    have hosl2 : ∀ c : CogBuilder, c.tile_counts = pyramidTileCounts 2048 2048 →
        (c.offset_size_locations 0 0).1 + 8 * 0 = 2048 := by
      intro c hc
      rw [osl_multi c 0 0 (by rw [hc]; decide), hc]
      decide
    rw [hosl2 _ rfl]
    split
    · rw [readU64_write_outside _ _ _ _
        (Or.inl (le_trans (by decide) (Nat.le_max_left _ _)))]
      rw [readU64_write_outside _ _ _ _ (Or.inr (by
        rw [Nat.zero_add, encodeData_length _ _ _ _ _
          (by norm_num : ([8] : List Nat).length ≤ 8)]
        decide))]
      decide
    · rename_i hcond
      exact absurd (by decide) hcond

/-- C5 (amended): when `new` is called with no prior file content, or with
prior content smaller than the header+DIRECTORY region (1024 × level count),
every slot of every level is initialized to the Unwritten state (offset
sentinel 1, size 0) and `valid_mask` returns false for every tile index of
every level. -/
theorem claim5_fresh_container (w h : Nat) (bpp : List Nat) (signed : Bool) (f : FileState)
    (b : CogBuilder) (f' : FileState)
    (hsmall : f.size < 1024 * (pyramidTileCounts w h).length)
    (hnew : CogBuilder.new w h bpp signed f = some (b, f')) :
    ∀ level, level < b.tile_counts.length →
      (∀ idx, idx < b.tile_counts.getD level 0 →
        readU64 f' (b.offset_size_locations level idx).1 = 1 ∧
        readU64 f' (b.offset_size_locations level idx).2 = 0) ∧
      b.valid_mask f' level = List.replicate (b.tile_counts.getD level 0) false := by
  simp only [CogBuilder.new] at hnew
  split at hnew
  · exact absurd hnew (by simp)
  · split at hnew
    · exact absurd hnew (by simp)
    · split at hnew
      · rename_i hA hB hge
        omega
      · simp only [Option.some_bind'] at hnew
        split at hnew
        · exact absurd hnew (by simp)
        · rename_i hA hB hlt hC
          have hb8 : bpp.length ≤ 8 := by omega
          injection hnew with hp
          injection hp with hb hf
          subst hb
          subst hf
          have hdlen := encodeData_length (pyramidDims w h) (pyramidTileCounts w h) bpp signed
            (1, 0) hb8
          have hcond : f.size < max (1024 * (pyramidTileCounts w h).length
              + 16 * (pyramidTileCounts w h).sum) f.size := by
            omega
          rw [if_pos hcond]
          rw [Nat.max_eq_right (show f.size ≤ (encodeData (pyramidDims w h)
            (pyramidTileCounts w h) bpp signed (1, 0)).length by rw [hdlen]; omega)]
          rw [show f.size - (encodeData (pyramidDims w h) (pyramidTileCounts w h) bpp signed
            (1, 0)).length = 0 by rw [hdlen]; omega]
          rw [List.drop_zero, hdlen]
          intro level hlevel
          exact fresh_store_level (pyramidDims w h) (pyramidTileCounts w h) bpp signed f _
            rfl hb8 level hlevel

set_option maxRecDepth 10000 in
set_option maxHeartbeats 2000000 in
/-- Witness for C5 (amended): on the container created over an empty file for
a 1×1 image, the single slot reads back the sentinel pair (1, 0) and the
valid mask is all-false. -/
theorem claim5_fresh_container_witness :
    readU64 demo1.2 (demo1.1.offset_size_locations 0 0).1 = 1 ∧
    readU64 demo1.2 (demo1.1.offset_size_locations 0 0).2 = 0 ∧
    demo1.1.valid_mask demo1.2 0 = List.replicate (demo1.1.tile_counts.getD 0 0) false := by
  have h := claim5_fresh_container 1 1 [8] false emptyFile demo1.1 demo1.2
    (by decide) rfl 0 (by decide)
  exact ⟨(h.1 0 (by decide)).1, (h.1 0 (by decide)).2, h.2⟩

/-! ### Pyramid zero-propagation and single-tile-level uniqueness -/

theorem pyramid_fst_zero_mono (w h j k : Nat) (hjk : j ≤ k) (hk : k < (pyramidDims w h).length)
    (hz : ((pyramidDims w h).getD j (0, 0)).1 = 0) :
    ((pyramidDims w h).getD k (0, 0)).1 = 0 := by
  induction k with
  | zero =>
    have hj0 : j = 0 := by omega
    subst hj0
    exact hz
  | succ k ih =>
    rcases Nat.lt_or_ge j (k + 1) with hlt | hge
    · have hzk := ih (by omega) (by omega)
      rw [pyramidDims_getD_succ w h k hk]
      show (((pyramidDims w h).getD k (0, 0)).1 + 1) / 2 = 0
      rw [hzk]
    · have hj : j = k + 1 := by omega
      subst hj
      exact hz

theorem pyramid_snd_zero_mono (w h j k : Nat) (hjk : j ≤ k) (hk : k < (pyramidDims w h).length)
    (hz : ((pyramidDims w h).getD j (0, 0)).2 = 0) :
    ((pyramidDims w h).getD k (0, 0)).2 = 0 := by
  induction k with
  | zero =>
    have hj0 : j = 0 := by omega
    subst hj0
    exact hz
  | succ k ih =>
    rcases Nat.lt_or_ge j (k + 1) with hlt | hge
    · have hzk := ih (by omega) (by omega)
      rw [pyramidDims_getD_succ w h k hk]
      show (((pyramidDims w h).getD k (0, 0)).2 + 1) / 2 = 0
      rw [hzk]
    · have hj : j = k + 1 := by omega
      subst hj
      exact hz

theorem pyramidTileCounts_length (w h : Nat) :
    (pyramidTileCounts w h).length = (pyramidDims w h).length := by
  simp [pyramidTileCounts]

theorem pyramid_unique_single (w h ℓ : Nat)
    (hℓ : ℓ < (pyramidTileCounts w h).length)
    (h1 : (pyramidTileCounts w h).getD ℓ 0 = 1) :
    ∀ j, j < (pyramidTileCounts w h).length → j ≠ ℓ →
      1 < (pyramidTileCounts w h).getD j 0 := by
  rw [pyramidTileCounts_length] at hℓ
  rw [pyramidTileCounts_getD w h ℓ hℓ] at h1
  have hcoord : 1 ≤ ((pyramidDims w h).getD ℓ (0, 0)).1 ∧
      ((pyramidDims w h).getD ℓ (0, 0)).1 ≤ 1024 ∧
      1 ≤ ((pyramidDims w h).getD ℓ (0, 0)).2 ∧
      ((pyramidDims w h).getD ℓ (0, 0)).2 ≤ 1024 := by
    unfold tileCount TILE_SIZE at h1
    have ha := Nat.eq_one_of_mul_eq_one_right h1
    have hb := Nat.eq_one_of_mul_eq_one_left h1
    omega
  have hlast : ℓ = (pyramidDims w h).length - 1 := by
    by_contra hne
    have hmid : ℓ + 1 < (pyramidDims w h).length := by omega
    rcases pyramidDims_mid w h ℓ hmid with hgt | hgt <;>
      (unfold TILE_SIZE at hgt; omega)
  have hpos : ∀ j, j < (pyramidDims w h).length →
      1 ≤ ((pyramidDims w h).getD j (0, 0)).1 ∧ 1 ≤ ((pyramidDims w h).getD j (0, 0)).2 := by
    intro j hj
    constructor
    · by_contra h0
      have hz : ((pyramidDims w h).getD j (0, 0)).1 = 0 := by omega
      have := pyramid_fst_zero_mono w h j ℓ (by omega) (by omega) hz
      omega
    · by_contra h0
      have hz : ((pyramidDims w h).getD j (0, 0)).2 = 0 := by omega
      have := pyramid_snd_zero_mono w h j ℓ (by omega) (by omega) hz
      omega
  intro j hj hne
  rw [pyramidTileCounts_length] at hj
  rw [pyramidTileCounts_getD w h j hj]
  have hj1 : j + 1 < (pyramidDims w h).length := by omega
  have hposj := hpos j hj
  unfold tileCount TILE_SIZE
  rcases pyramidDims_mid w h j hj1 with hgt | hgt
  · unfold TILE_SIZE at hgt
    have h2 : 2 ≤ (((pyramidDims w h).getD j (0, 0)).1 + 1024 - 1) / 1024 := by omega
    have h1b : 1 ≤ (((pyramidDims w h).getD j (0, 0)).2 + 1024 - 1) / 1024 := by omega
    have := Nat.mul_le_mul h2 h1b
    omega
  · unfold TILE_SIZE at hgt
    have h2 : 2 ≤ (((pyramidDims w h).getD j (0, 0)).2 + 1024 - 1) / 1024 := by omega
    have h1b : 1 ≤ (((pyramidDims w h).getD j (0, 0)).1 + 1024 - 1) / 1024 := by omega
    have := Nat.mul_le_mul h1b h2
    omega

/-! ### The encoded region depends on the inline pair only inside the two
8-byte value windows of the single-tile level's 0x144/0x145 tags -/

theorem ifdBytes_getD_numtags (L level w h : Nat) (bpp : List Nat) (signed : Bool)
    (tc io : Nat) (single : Nat × Nat) (r : Nat) (hr : r < 8) :
    (ifdBytes L level w h bpp signed tc io single).getD r 0 = (toLE64 NUM_TAGS).getD r 0 := by
  unfold ifdBytes
  rw [List.getD_append _ _ _ _ (by rw [List.length_append, toLE64_length]; omega)]
  rw [List.getD_append _ _ _ _ (by rw [toLE64_length]; omega)]

theorem append2_getD_left (a b c : List Nat) (r : Nat) (hr : r < a.length) :
    (a ++ b ++ c).getD r 0 = a.getD r 0 := by
  have h1 : r < (a ++ b).length := by rw [List.length_append]; omega
  rw [List.getD_append (a ++ b) c 0 r h1]
  exact List.getD_append a b 0 r hr

theorem append3_getD_front (a b c d : List Nat) (r : Nat)
    (hr : r < a.length + b.length + c.length) :
    (a ++ b ++ c ++ d).getD r 0 = (a ++ b ++ c).getD r 0 := by
  have h1 : r < (a ++ b ++ c).length := by rw [List.length_append, List.length_append]; omega
  exact List.getD_append (a ++ b ++ c) d 0 r h1

theorem tagEntry_getD_front (id typ count : Nat) (v1 v2 : List Nat) (k : Nat)
    (hk : k < 12) :
    (tagEntry id typ count v1).getD k 0 = (tagEntry id typ count v2).getD k 0 := by
  unfold tagEntry
  rw [append3_getD_front _ _ _ _ k
    (by rw [toLE16_length, toLE16_length, toLE64_length]; omega)]
  rw [append3_getD_front _ _ _ _ k
    (by rw [toLE16_length, toLE16_length, toLE64_length]; omega)]

theorem ifdEntries_getD_congr (level w h : Nat) (bpp : List Nat) (signed : Bool)
    (tc io : Nat) (s1 s2 : Nat × Nat) (t : Nat) (ht : t < 12) (h9 : t ≠ 9) (h10 : t ≠ 10) :
    (ifdEntries level w h bpp signed tc io s1).getD t [] =
      (ifdEntries level w h bpp signed tc io s2).getD t [] := by
  interval_cases t <;> first | rfl | exact absurd rfl h9 | exact absurd rfl h10

theorem ifdBytes_getD_congr (L level w h : Nat) (bpp : List Nat) (signed : Bool)
    (tc io : Nat) (s1 s2 : Nat × Nat) (hb : bpp.length ≤ 8) (r : Nat) (hr : r < 256)
    (ho : ¬ (200 ≤ r ∧ r < 208)) (hs : ¬ (220 ≤ r ∧ r < 228)) :
    (ifdBytes L level w h bpp signed tc io s1).getD r 0 =
      (ifdBytes L level w h bpp signed tc io s2).getD r 0 := by
  rcases Nat.lt_or_ge r 8 with h8 | h8
  · rw [ifdBytes_getD_numtags L level w h bpp signed tc io s1 r h8,
        ifdBytes_getD_numtags L level w h bpp signed tc io s2 r h8]
  · rcases Nat.lt_or_ge r 248 with h248 | h248
    · obtain ⟨t, k, ht, hk, rfl⟩ : ∃ t k, t < 12 ∧ k < 20 ∧ r = 8 + 20 * t + k :=
        ⟨(r - 8) / 20, (r - 8) % 20, by omega, by omega, by omega⟩
      rw [ifdBytes_getD_entry _ _ _ _ _ _ _ _ _ hb t k ht hk,
          ifdBytes_getD_entry _ _ _ _ _ _ _ _ _ hb t k ht hk]
      by_cases ht9 : t = 9
      · subst ht9
        rw [ifdEntries_getD_nine, ifdEntries_getD_nine]
        exact tagEntry_getD_front _ _ _ _ _ k (by omega)
      · by_cases ht10 : t = 10
        · subst ht10
          rw [ifdEntries_getD_ten, ifdEntries_getD_ten]
          exact tagEntry_getD_front _ _ _ _ _ k (by omega)
        · rw [ifdEntries_getD_congr level w h bpp signed tc io s1 s2 t ht ht9 ht10]
    · have hflat1 : (ifdEntries level w h bpp signed tc io s1).flatten.length = 240 := by
        rw [length_flatten_of_uniform _ 20 (ifdEntries_length_each level w h bpp signed tc io
          s1 hb)]
        rw [show (ifdEntries level w h bpp signed tc io s1).length = 12 from rfl]
      have hflat2 : (ifdEntries level w h bpp signed tc io s2).flatten.length = 240 := by
        rw [length_flatten_of_uniform _ 20 (ifdEntries_length_each level w h bpp signed tc io
          s2 hb)]
        rw [show (ifdEntries level w h bpp signed tc io s2).length = 12 from rfl]
      have hL1 : (toLE64 NUM_TAGS ++ (ifdEntries level w h bpp signed tc io s1).flatten).length
          = 248 := by rw [List.length_append, toLE64_length, hflat1]
      have hL2 : (toLE64 NUM_TAGS ++ (ifdEntries level w h bpp signed tc io s2).flatten).length
          = 248 := by rw [List.length_append, toLE64_length, hflat2]
      unfold ifdBytes
      rw [List.getD_append_right _ _ _ _ (by rw [hL1]; omega)]
      rw [List.getD_append_right _ _ _ _ (by rw [hL2]; omega)]
      rw [hL1, hL2]

theorem levelSlot_getD_congr (dims : List (Nat × Nat)) (tcs : List Nat) (bpp : List Nat)
    (signed : Bool) (s1 s2 : Nat × Nat) (ℓ : Nat) (hb : bpp.length ≤ 8) (r : Nat)
    (hr : r < 1024)
    (ho : ¬ ((if ℓ = 0 then 16 else 0) + 200 ≤ r ∧ r < (if ℓ = 0 then 16 else 0) + 208))
    (hs : ¬ ((if ℓ = 0 then 16 else 0) + 220 ≤ r ∧ r < (if ℓ = 0 then 16 else 0) + 228)) :
    (levelSlot dims tcs bpp signed s1 ℓ).getD r 0 =
      (levelSlot dims tcs bpp signed s2 ℓ).getD r 0 := by
  by_cases h0 : ℓ = 0
  · subst h0
    simp only [reduceIte] at ho hs
    have hlen1 := ifdBytes_length tcs.length 0 (dims.getD 0 (0, 0)).1 (dims.getD 0 (0, 0)).2
      bpp signed (tcs.getD 0 0) (1024 * tcs.length + 16 * (tcs.take 0).sum) s1 hb
    have hlen2 := ifdBytes_length tcs.length 0 (dims.getD 0 (0, 0)).1 (dims.getD 0 (0, 0)).2
      bpp signed (tcs.getD 0 0) (1024 * tcs.length + 16 * (tcs.take 0).sum) s2 hb
    unfold levelSlot slotBytes
    simp only [reduceIte]
    rcases Nat.lt_or_ge r 16 with h16 | h16
    · rw [append2_getD_left _ _ _ r (by rw [headerBytes_length]; omega)]
      rw [append2_getD_left _ _ _ r (by rw [headerBytes_length]; omega)]
    · rcases Nat.lt_or_ge r 272 with h272 | h272
      · obtain ⟨r', rfl⟩ : ∃ r', r = 16 + r' := ⟨r - 16, by omega⟩
        rw [show (16 : Nat) + r' = headerBytes.length + r' from rfl]
        rw [slot_getD_generic _ _ _ _ (by rw [hlen1]; omega)]
        rw [slot_getD_generic _ _ _ _ (by rw [hlen2]; omega)]
        exact ifdBytes_getD_congr _ _ _ _ _ _ _ _ _ _ hb r' (by omega) (by omega) (by omega)
      · have h2721 : (headerBytes ++ ifdBytes tcs.length 0 (dims.getD 0 (0, 0)).1
            (dims.getD 0 (0, 0)).2 bpp signed (tcs.getD 0 0)
            (1024 * tcs.length + 16 * (tcs.take 0).sum) s1).length = 272 := by
          rw [List.length_append, headerBytes_length, hlen1]
        have h2722 : (headerBytes ++ ifdBytes tcs.length 0 (dims.getD 0 (0, 0)).1
            (dims.getD 0 (0, 0)).2 bpp signed (tcs.getD 0 0)
            (1024 * tcs.length + 16 * (tcs.take 0).sum) s2).length = 272 := by
          rw [List.length_append, headerBytes_length, hlen2]
        rw [List.getD_append_right _ _ _ _ (by rw [h2721]; omega)]
        rw [List.getD_append_right _ _ _ _ (by rw [h2722]; omega)]
        rw [h2721, h2722]
  · simp only [if_neg h0] at ho hs
    have hlen1 := ifdBytes_length tcs.length ℓ (dims.getD ℓ (0, 0)).1 (dims.getD ℓ (0, 0)).2
      bpp signed (tcs.getD ℓ 0) (1024 * tcs.length + 16 * (tcs.take ℓ).sum) s1 hb
    have hlen2 := ifdBytes_length tcs.length ℓ (dims.getD ℓ (0, 0)).1 (dims.getD ℓ (0, 0)).2
      bpp signed (tcs.getD ℓ 0) (1024 * tcs.length + 16 * (tcs.take ℓ).sum) s2 hb
    unfold levelSlot slotBytes
    simp only [if_neg h0]
    rcases Nat.lt_or_ge r 256 with h256 | h256
    · rw [List.getD_append _ _ _ _ (by rw [hlen1]; omega)]
      rw [List.getD_append _ _ _ _ (by rw [hlen2]; omega)]
      exact ifdBytes_getD_congr _ _ _ _ _ _ _ _ _ _ hb r h256 (by omega) (by omega)
    · rw [List.getD_append_right _ _ _ _ (by rw [hlen1]; omega)]
      rw [List.getD_append_right _ _ _ _ (by rw [hlen2]; omega)]
      rw [hlen1, hlen2]

theorem levelSlot_single_congr (dims : List (Nat × Nat)) (tcs : List Nat) (bpp : List Nat)
    (signed : Bool) (s1 s2 : Nat × Nat) (j : Nat) (htc : 1 < tcs.getD j 0) :
    levelSlot dims tcs bpp signed s1 j = levelSlot dims tcs bpp signed s2 j := by
  unfold levelSlot slotBytes ifdBytes ifdEntries
  simp only [if_pos htc]

theorem ifdStart_split (ℓ : Nat) : ifdStart ℓ = 1024 * ℓ + (if ℓ = 0 then 16 else 0) := by
  unfold ifdStart
  by_cases h0 : ℓ = 0 <;> simp [h0]

theorem encodeData_getD_single_congr (dims : List (Nat × Nat)) (tcs : List Nat)
    (bpp : List Nat) (signed : Bool) (s1 s2 : Nat × Nat) (hb : bpp.length ≤ 8) (ℓ : Nat)
    (hℓ : ℓ < tcs.length)
    (hothers : ∀ j, j < tcs.length → j ≠ ℓ → 1 < tcs.getD j 0)
    (i : Nat) (hi : i < 1024 * tcs.length)
    (ho : ¬ (ifdStart ℓ + 200 ≤ i ∧ i < ifdStart ℓ + 208))
    (hs : ¬ (ifdStart ℓ + 220 ≤ i ∧ i < ifdStart ℓ + 228)) :
    (encodeData dims tcs bpp signed s1).getD i 0 =
      (encodeData dims tcs bpp signed s2).getD i 0 := by
  obtain ⟨j, r, hj, hr, rfl⟩ : ∃ j r, j < tcs.length ∧ r < 1024 ∧ i = 1024 * j + r :=
    ⟨i / 1024, i % 1024, by omega, by omega, by omega⟩
  rw [encodeData_getD dims tcs bpp signed s1 hb j r hj hr,
      encodeData_getD dims tcs bpp signed s2 hb j r hj hr]
  by_cases hjl : j = ℓ
  · subst hjl
    rw [ifdStart_split j] at ho hs
    exact levelSlot_getD_congr dims tcs bpp signed s1 s2 j hb r hr (by omega) (by omega)
  · rw [levelSlot_single_congr dims tcs bpp signed s1 s2 j (hothers j hj hjl)]

theorem encodeData_getD_offset_window (dims : List (Nat × Nat)) (tcs : List Nat)
    (bpp : List Nat) (signed : Bool) (single : Nat × Nat) (hb : bpp.length ≤ 8)
    (level : Nat) (hlevel : level < tcs.length) (htc : ¬ 1 < tcs.getD level 0)
    (k : Nat) (hk : k < 8) :
    (encodeData dims tcs bpp signed single).getD (ifdStart level + 200 + k) 0 =
      (toLE64 single.1).getD k 0 := by
  rw [show ifdStart level + 200 + k = ifdStart level + (200 + k) by omega]
  rw [encodeData_getD_ifd dims tcs bpp signed single level (200 + k) hb hlevel (by omega)]
  rw [show 200 + k = 8 + 20 * 9 + (12 + k) by omega]
  rw [ifdBytes_getD_entry _ _ _ _ _ _ _ _ _ hb 9 (12 + k) (by omega) (by omega)]
  rw [ifdEntries_getD_nine]
  rw [tagEntry_getD_value _ _ _ _ k hk (toLE64_length _)]
  rw [if_neg htc]

theorem encodeData_getD_size_window (dims : List (Nat × Nat)) (tcs : List Nat)
    (bpp : List Nat) (signed : Bool) (single : Nat × Nat) (hb : bpp.length ≤ 8)
    (level : Nat) (hlevel : level < tcs.length) (htc : ¬ 1 < tcs.getD level 0)
    (k : Nat) (hk : k < 8) :
    (encodeData dims tcs bpp signed single).getD (ifdStart level + 220 + k) 0 =
      (toLE64 single.2).getD k 0 := by
  rw [show ifdStart level + 220 + k = ifdStart level + (220 + k) by omega]
  rw [encodeData_getD_ifd dims tcs bpp signed single level (220 + k) hb hlevel (by omega)]
  rw [show 220 + k = 8 + 20 * 10 + (12 + k) by omega]
  rw [ifdBytes_getD_entry _ _ _ _ _ _ _ _ _ hb 10 (12 + k) (by omega) (by omega)]
  rw [ifdEntries_getD_ten]
  rw [tagEntry_getD_value _ _ _ _ k hk (toLE64_length _)]
  rw [if_neg htc]

/-! ### The reopen scan over an encoded region recovers the inline pair -/

theorem region_read_numtags (dims : List (Nat × Nat)) (tcs bpp : List Nat) (signed : Bool)
    (o s : Nat) (f : FileState) (hb : bpp.length ≤ 8)
    (hreg : ∀ i, i < 1024 * tcs.length →
      f.bytes i = (encodeData dims tcs bpp signed (o, s)).getD i 0)
    (i : Nat) (hi : i < tcs.length) :
    readU64 f (ifdStart i) = NUM_TAGS := by
  have hbound := ifdStart_bound i tcs.length hi
  have h8 : ∀ k, k < 8 → f.bytes (ifdStart i + k) = (toLE64 NUM_TAGS).getD k 0 := by
    intro k hk
    rw [hreg _ (by omega)]
    rw [encodeData_getD_ifd dims tcs bpp signed (o, s) i k hb hi (by omega)]
    exact ifdBytes_getD_numtags _ _ _ _ _ _ _ _ _ k hk
  rw [readU64_eq_of_bytes f _ NUM_TAGS h8]
  norm_num [NUM_TAGS]

theorem region_read_kind_aux (dims : List (Nat × Nat)) (tcs bpp : List Nat) (signed : Bool)
    (o s : Nat) (f : FileState) (hb : bpp.length ≤ 8)
    (hreg : ∀ i, i < 1024 * tcs.length →
      f.bytes i = (encodeData dims tcs bpp signed (o, s)).getD i 0)
    (i : Nat) (hi : i < tcs.length) (t : Nat) (ht : t < 12) :
    readU16 f (ifdStart i + 8 + 20 * t) =
      fromLEBytes
        [((ifdEntries i (dims.getD i (0, 0)).1 (dims.getD i (0, 0)).2 bpp signed
            (tcs.getD i 0) (1024 * tcs.length + 16 * (tcs.take i).sum) (o, s)).getD t []).getD 0 0,
         ((ifdEntries i (dims.getD i (0, 0)).1 (dims.getD i (0, 0)).2 bpp signed
            (tcs.getD i 0) (1024 * tcs.length + 16 * (tcs.take i).sum) (o, s)).getD t []).getD 1 0]
    := by
  have hbound := ifdStart_bound i tcs.length hi
  have hbyte : ∀ k, k < 2 → f.bytes (ifdStart i + 8 + 20 * t + k) =
      ((ifdEntries i (dims.getD i (0, 0)).1 (dims.getD i (0, 0)).2 bpp signed
        (tcs.getD i 0) (1024 * tcs.length + 16 * (tcs.take i).sum) (o, s)).getD t []).getD k 0 := by
    intro k hk
    rw [hreg _ (by omega)]
    rw [show ifdStart i + 8 + 20 * t + k = ifdStart i + (8 + 20 * t + k) by omega]
    rw [encodeData_getD_ifd dims tcs bpp signed (o, s) i (8 + 20 * t + k) hb hi (by omega)]
    exact ifdBytes_getD_entry _ _ _ _ _ _ _ _ _ hb t k ht (by omega)
  unfold readU16 readBytesAt
  rw [show List.range 2 = [0, 1] from rfl]
  simp only [List.map_cons, List.map_nil]
  rw [hbyte 0 (by omega), hbyte 1 (by omega)]

theorem region_read_inline_offset (dims : List (Nat × Nat)) (tcs bpp : List Nat)
    (signed : Bool) (o s : Nat) (f : FileState) (hb : bpp.length ≤ 8)
    (hreg : ∀ i, i < 1024 * tcs.length →
      f.bytes i = (encodeData dims tcs bpp signed (o, s)).getD i 0)
    (i : Nat) (hi : i < tcs.length) (htc : ¬ 1 < tcs.getD i 0) :
    readU64 f (ifdStart i + 200) = o % 2 ^ 64 := by
  have hbound := ifdStart_bound i tcs.length hi
  have h8 : ∀ k, k < 8 → f.bytes (ifdStart i + 200 + k) = (toLE64 o).getD k 0 := by
    intro k hk
    rw [hreg _ (by omega)]
    exact encodeData_getD_offset_window dims tcs bpp signed (o, s) hb i hi htc k hk
  exact readU64_eq_of_bytes f _ o h8

theorem region_read_inline_size (dims : List (Nat × Nat)) (tcs bpp : List Nat)
    (signed : Bool) (o s : Nat) (f : FileState) (hb : bpp.length ≤ 8)
    (hreg : ∀ i, i < 1024 * tcs.length →
      f.bytes i = (encodeData dims tcs bpp signed (o, s)).getD i 0)
    (i : Nat) (hi : i < tcs.length) (htc : ¬ 1 < tcs.getD i 0) :
    readU64 f (ifdStart i + 220) = s % 2 ^ 64 := by
  have hbound := ifdStart_bound i tcs.length hi
  have h8 : ∀ k, k < 8 → f.bytes (ifdStart i + 220 + k) = (toLE64 s).getD k 0 := by
    intro k hk
    rw [hreg _ (by omega)]
    exact encodeData_getD_size_window dims tcs bpp signed (o, s) hb i hi htc k hk
  exact readU64_eq_of_bytes f _ s h8

theorem region_read_kind (dims : List (Nat × Nat)) (tcs bpp : List Nat) (signed : Bool)
    (o s : Nat) (f : FileState) (hb : bpp.length ≤ 8)
    (hreg : ∀ i, i < 1024 * tcs.length →
      f.bytes i = (encodeData dims tcs bpp signed (o, s)).getD i 0)
    (i : Nat) (hi : i < tcs.length) (t : Nat) (ht : t < 12) :
    readU16 f (ifdStart i + 8 + 20 * t) =
      [0xFE, 0x100, 0x101, 0x102, 0x103, 0x106, 0x115, 0x142, 0x143, 0x144, 0x145,
        0x153].getD t 0 := by
  rw [region_read_kind_aux dims tcs bpp signed o s f hb hreg i hi t ht]
  interval_cases t <;> rfl

theorem scanFold_skip (kind value : Nat → Nat) (B ioff tc : Nat) (ts : List Nat)
    (acc : Nat × Nat)
    (h : ∀ t ∈ ts, ¬ B < ioff + 8 + 20 * t + 2 ∧ ¬ B < ioff + 8 + 20 * t + 12 + 8 ∧
      ¬ (kind t = 0x144 ∧ tc = 1) ∧ ¬ (kind t = 0x145 ∧ tc = 1)) :
    ts.foldl (fun (a : Option (Nat × Nat)) (t : Nat) =>
      a.bind fun a =>
        if B < ioff + 8 + 20 * t + 2 then none
        else if B < ioff + 8 + 20 * t + 12 + 8 then none
        else if kind t = 0x144 ∧ tc = 1 then some (value t, a.2)
        else if kind t = 0x145 ∧ tc = 1 then some (a.1, value t)
        else some a) (some acc) = some acc := by
  revert h
  induction ts generalizing acc with
  | nil =>
    intro h
    rfl
  | cons t ts ih =>
    intro h
    have ht := h t (List.mem_cons_self t ts)
    rw [List.foldl_cons]
    have hred : ((some acc).bind fun a =>
        if B < ioff + 8 + 20 * t + 2 then none
        else if B < ioff + 8 + 20 * t + 12 + 8 then none
        else if kind t = 0x144 ∧ tc = 1 then some (value t, a.2)
        else if kind t = 0x145 ∧ tc = 1 then some (a.1, value t)
        else some a) = some acc := by
      show (if B < ioff + 8 + 20 * t + 2 then none
        else if B < ioff + 8 + 20 * t + 12 + 8 then none
        else if kind t = 0x144 ∧ tc = 1 then some (value t, acc.2)
        else if kind t = 0x145 ∧ tc = 1 then some (acc.1, value t)
        else some acc) = some acc
      rw [if_neg ht.1, if_neg ht.2.1, if_neg ht.2.2.1, if_neg ht.2.2.2]
    rw [hred]
    exact ih acc (fun u hu => h u (List.mem_cons_of_mem _ hu))

theorem scanFold_spec (kind value : Nat → Nat) (B ioff tc : Nat) (acc : Nat × Nat)
    (hk : ∀ t, t < 12 → kind t =
      [0xFE, 0x100, 0x101, 0x102, 0x103, 0x106, 0x115, 0x142, 0x143, 0x144, 0x145,
        0x153].getD t 0)
    (hbound : ∀ t, t < 12 → ¬ B < ioff + 8 + 20 * t + 2 ∧
      ¬ B < ioff + 8 + 20 * t + 12 + 8) :
    (List.range 12).foldl (fun (a : Option (Nat × Nat)) (t : Nat) =>
      a.bind fun a =>
        if B < ioff + 8 + 20 * t + 2 then none
        else if B < ioff + 8 + 20 * t + 12 + 8 then none
        else if kind t = 0x144 ∧ tc = 1 then some (value t, a.2)
        else if kind t = 0x145 ∧ tc = 1 then some (a.1, value t)
        else some a) (some acc) =
      some (if tc = 1 then (value 9, value 10) else acc) := by
  by_cases htc : tc = 1
  · rw [if_pos htc]
    rw [show List.range 12 = ([0, 1, 2, 3, 4, 5, 6, 7, 8] ++ 9 :: 10 :: [11] : List Nat)
      from rfl]
    rw [List.foldl_append]
    rw [scanFold_skip kind value B ioff tc [0, 1, 2, 3, 4, 5, 6, 7, 8] acc ?_]
    · rw [List.foldl_cons]
      have h9red : ((some acc).bind fun a =>
          if B < ioff + 8 + 20 * 9 + 2 then none
          else if B < ioff + 8 + 20 * 9 + 12 + 8 then none
          else if kind 9 = 0x144 ∧ tc = 1 then some (value 9, a.2)
          else if kind 9 = 0x145 ∧ tc = 1 then some (a.1, value 9)
          else some a) = some (value 9, acc.2) := by
        show (if B < ioff + 8 + 20 * 9 + 2 then none
          else if B < ioff + 8 + 20 * 9 + 12 + 8 then none
          else if kind 9 = 0x144 ∧ tc = 1 then some (value 9, acc.2)
          else if kind 9 = 0x145 ∧ tc = 1 then some (acc.1, value 9)
          else some acc) = some (value 9, acc.2)
        rw [if_neg (hbound 9 (by omega)).1, if_neg (hbound 9 (by omega)).2]
        rw [if_pos ⟨(hk 9 (by omega)).trans (by rfl), htc⟩]
      rw [h9red]
      rw [List.foldl_cons]
      have h10red : ((some ((value 9 : Nat), (acc.2 : Nat))).bind fun a =>
          if B < ioff + 8 + 20 * 10 + 2 then none
          else if B < ioff + 8 + 20 * 10 + 12 + 8 then none
          else if kind 10 = 0x144 ∧ tc = 1 then some (value 10, a.2)
          else if kind 10 = 0x145 ∧ tc = 1 then some (a.1, value 10)
          else some a) = some (value 9, value 10) := by
        show (if B < ioff + 8 + 20 * 10 + 2 then none
          else if B < ioff + 8 + 20 * 10 + 12 + 8 then none
          else if kind 10 = 0x144 ∧ tc = 1 then some (value 10, (value 9, acc.2).2)
          else if kind 10 = 0x145 ∧ tc = 1 then some ((value 9, acc.2).1, value 10)
          else some (value 9, acc.2)) = some (value 9, value 10)
        rw [if_neg (hbound 10 (by omega)).1, if_neg (hbound 10 (by omega)).2]
        rw [if_neg (fun hc => absurd hc.1 (by rw [hk 10 (by omega)]; decide))]
        rw [if_pos ⟨(hk 10 (by omega)).trans (by rfl), htc⟩]
      rw [h10red]
      exact scanFold_skip kind value B ioff tc [11] (value 9, value 10) (by
        intro u hu
        refine ⟨?_, ?_, ?_, ?_⟩
        · fin_cases hu
          exact (hbound 11 (by omega)).1
        · fin_cases hu
          exact (hbound 11 (by omega)).2
        · intro hc
          have := hc.1
          fin_cases hu <;> (rw [hk _ (by omega)] at this; exact absurd this (by decide))
        · intro hc
          have := hc.1
          fin_cases hu <;> (rw [hk _ (by omega)] at this; exact absurd this (by decide)))
    · intro u hu
      have hu12 : u < 12 := by fin_cases hu <;> omega
      refine ⟨(hbound u hu12).1, (hbound u hu12).2, ?_, ?_⟩
      · intro hc
        have := hc.1
        fin_cases hu <;> (rw [hk _ (by omega)] at this; exact absurd this (by decide))
      · intro hc
        have := hc.1
        fin_cases hu <;> (rw [hk _ (by omega)] at this; exact absurd this (by decide))
  · rw [if_neg htc]
    exact scanFold_skip kind value B ioff tc (List.range 12) acc
      (fun t ht => ⟨(hbound t (List.mem_range.mp ht)).1,
        (hbound t (List.mem_range.mp ht)).2,
        fun hc => htc hc.2, fun hc => htc hc.2⟩)

theorem scanLevel_region (dims : List (Nat × Nat)) (tcs bpp : List Nat) (signed : Bool)
    (o s : Nat) (f : FileState) (hb : bpp.length ≤ 8)
    (hreg : ∀ i, i < 1024 * tcs.length →
      f.bytes i = (encodeData dims tcs bpp signed (o, s)).getD i 0)
    (i : Nat) (hi : i < tcs.length) (acc : Nat × Nat) :
    scanLevel f (1024 * tcs.length) (tcs.getD i 0) (ifdStart i) acc =
      some (if tcs.getD i 0 = 1 then (o % 2 ^ 64, s % 2 ^ 64) else acc) := by
  have hbnd := ifdStart_bound i tcs.length hi
  have hnt := region_read_numtags dims tcs bpp signed o s f hb hreg i hi
  have hkk : ∀ t, t < 12 → readU16 f (ifdStart i + 8 + 20 * t) =
      [0xFE, 0x100, 0x101, 0x102, 0x103, 0x106, 0x115, 0x142, 0x143, 0x144, 0x145,
        0x153].getD t 0 :=
    fun t ht => region_read_kind dims tcs bpp signed o s f hb hreg i hi t ht
  have hbound : ∀ t, t < 12 → ¬ 1024 * tcs.length < ifdStart i + 8 + 20 * t + 2 ∧
      ¬ 1024 * tcs.length < ifdStart i + 8 + 20 * t + 12 + 8 :=
    fun t ht => ⟨by omega, by omega⟩
  have hspec := scanFold_spec (fun t => readU16 f (ifdStart i + 8 + 20 * t))
      (fun t => readU64 f (ifdStart i + 8 + 20 * t + 12)) (1024 * tcs.length) (ifdStart i)
      (tcs.getD i 0) acc hkk hbound
  unfold scanLevel
  rw [if_neg (show ¬ 1024 * tcs.length < ifdStart i + 8 by omega)]
  rw [hnt]
  by_cases htc : tcs.getD i 0 = 1
  · have hv9 : readU64 f (ifdStart i + 8 + 20 * 9 + 12) = o % 2 ^ 64 := by
      rw [show ifdStart i + 8 + 20 * 9 + 12 = ifdStart i + 200 by omega]
      exact region_read_inline_offset dims tcs bpp signed o s f hb hreg i hi (by omega)
    have hv10 : readU64 f (ifdStart i + 8 + 20 * 10 + 12) = s % 2 ^ 64 := by
      rw [show ifdStart i + 8 + 20 * 10 + 12 = ifdStart i + 220 by omega]
      exact region_read_inline_size dims tcs bpp signed o s f hb hreg i hi (by omega)
    rw [if_pos htc] at hspec ⊢
    exact hspec.trans (congrArg some (by
      show (readU64 f (ifdStart i + 8 + 20 * 9 + 12),
        readU64 f (ifdStart i + 8 + 20 * 10 + 12)) = (o % 2 ^ 64, s % 2 ^ 64)
      rw [hv9, hv10]))
  · rw [if_neg htc] at hspec ⊢
    exact hspec

theorem scanIFDs_region (dims : List (Nat × Nat)) (tcs bpp : List Nat) (signed : Bool)
    (o s : Nat) (f : FileState) (hb : bpp.length ≤ 8)
    (hreg : ∀ i, i < 1024 * tcs.length →
      f.bytes i = (encodeData dims tcs bpp signed (o, s)).getD i 0) :
    scanIFDs f tcs =
      some (if tcs.any (fun tc => tc = 1) then (o % 2 ^ 64, s % 2 ^ 64) else (1, 0)) := by
  suffices h : ∀ n, n ≤ tcs.length →
      (List.range n).foldl (fun (acc : Option (Nat × Nat)) (i : Nat) =>
        acc.bind fun a =>
          scanLevel f (1024 * tcs.length) (tcs.getD i 0) (if i = 0 then 16 else 1024 * i) a)
        (some (1, 0))
      = some (if (tcs.take n).any (fun tc => tc = 1) then (o % 2 ^ 64, s % 2 ^ 64)
          else (1, 0)) by
    have hfin := h tcs.length (Nat.le_refl _)
    rw [List.take_length] at hfin
    unfold scanIFDs
    exact hfin
  intro n
  induction n with
  | zero =>
    intro _
    simp
  | succ n ih =>
    intro hn
    rw [List.range_succ, List.foldl_append]
    simp only [List.foldl_cons, List.foldl_nil]
    rw [ih (by omega)]
    simp only [Option.some_bind']
    rw [show (if n = 0 then 16 else 1024 * n) = ifdStart n from rfl]
    rw [scanLevel_region dims tcs bpp signed o s f hb hreg n (by omega)]
    have htake : (tcs.take (n + 1)).any (fun tc => tc = 1)
        = ((tcs.take n).any (fun tc => tc = 1) || decide (tcs.getD n 0 = 1)) := by
      rw [List.take_succ, List.any_append]
      congr 1
      rw [List.getElem?_eq_getElem (show n < tcs.length by omega)]
      rw [List.getD_eq_getElem tcs 0 (show n < tcs.length by omega)]
      simp
    rw [htake]
    by_cases h1 : tcs.getD n 0 = 1
    · rw [if_pos h1, h1]
      simp
    · rw [if_neg h1]
      have hd : decide (tcs.getD n 0 = 1) = false := decide_eq_false h1
      rw [hd, Bool.or_false]

/-! ### Writing an inline offset/size field updates the encoded region's pair -/

theorem region_write_inline_offset (dims : List (Nat × Nat)) (tcs bpp : List Nat)
    (signed : Bool) (f : FileState) (o s v : Nat) (hb : bpp.length ≤ 8)
    (ℓ : Nat) (hℓ : ℓ < tcs.length) (htc1 : tcs.getD ℓ 0 = 1)
    (hothers : ∀ j, j < tcs.length → j ≠ ℓ → 1 < tcs.getD j 0)
    (hreg : ∀ i, i < 1024 * tcs.length →
      f.bytes i = (encodeData dims tcs bpp signed (o, s)).getD i 0)
    (i : Nat) (hi : i < 1024 * tcs.length) :
    (writeBytesAt f (ifdStart ℓ + 200) (toLE64 v)).bytes i
      = (encodeData dims tcs bpp signed (v, s)).getD i 0 := by
  by_cases hw : ifdStart ℓ + 200 ≤ i ∧ i < ifdStart ℓ + 200 + 8
  · obtain ⟨k, hk, rfl⟩ : ∃ k, k < 8 ∧ i = ifdStart ℓ + 200 + k :=
      ⟨i - (ifdStart ℓ + 200), by omega, by omega⟩
    rw [writeBytesAt_bytes_inside f _ _ _ hw.1 (by rw [toLE64_length]; omega)]
    rw [show ifdStart ℓ + 200 + k - (ifdStart ℓ + 200) = k by omega]
    rw [encodeData_getD_offset_window dims tcs bpp signed (v, s) hb ℓ hℓ (by omega) k hk]
  · rw [writeBytesAt_bytes_outside f _ _ _ (by rw [toLE64_length]; omega)]
    rw [hreg i hi]
    by_cases hw2 : ifdStart ℓ + 220 ≤ i ∧ i < ifdStart ℓ + 228
    · obtain ⟨k, hk, rfl⟩ : ∃ k, k < 8 ∧ i = ifdStart ℓ + 220 + k :=
        ⟨i - (ifdStart ℓ + 220), by omega, by omega⟩
      rw [encodeData_getD_size_window dims tcs bpp signed (o, s) hb ℓ hℓ (by omega) k hk]
      rw [encodeData_getD_size_window dims tcs bpp signed (v, s) hb ℓ hℓ (by omega) k hk]
    · exact encodeData_getD_single_congr dims tcs bpp signed (o, s) (v, s) hb ℓ hℓ hothers
        i hi (by omega) (by omega)

theorem region_write_inline_size (dims : List (Nat × Nat)) (tcs bpp : List Nat)
    (signed : Bool) (f : FileState) (o s v : Nat) (hb : bpp.length ≤ 8)
    (ℓ : Nat) (hℓ : ℓ < tcs.length) (htc1 : tcs.getD ℓ 0 = 1)
    (hothers : ∀ j, j < tcs.length → j ≠ ℓ → 1 < tcs.getD j 0)
    (hreg : ∀ i, i < 1024 * tcs.length →
      f.bytes i = (encodeData dims tcs bpp signed (o, s)).getD i 0)
    (i : Nat) (hi : i < 1024 * tcs.length) :
    (writeBytesAt f (ifdStart ℓ + 220) (toLE64 v)).bytes i
      = (encodeData dims tcs bpp signed (o, v)).getD i 0 := by
  by_cases hw : ifdStart ℓ + 220 ≤ i ∧ i < ifdStart ℓ + 220 + 8
  · obtain ⟨k, hk, rfl⟩ : ∃ k, k < 8 ∧ i = ifdStart ℓ + 220 + k :=
      ⟨i - (ifdStart ℓ + 220), by omega, by omega⟩
    rw [writeBytesAt_bytes_inside f _ _ _ hw.1 (by rw [toLE64_length]; omega)]
    rw [show ifdStart ℓ + 220 + k - (ifdStart ℓ + 220) = k by omega]
    rw [encodeData_getD_size_window dims tcs bpp signed (o, v) hb ℓ hℓ (by omega) k hk]
  · rw [writeBytesAt_bytes_outside f _ _ _ (by rw [toLE64_length]; omega)]
    rw [hreg i hi]
    by_cases hw2 : ifdStart ℓ + 200 ≤ i ∧ i < ifdStart ℓ + 208
    · obtain ⟨k, hk, rfl⟩ : ∃ k, k < 8 ∧ i = ifdStart ℓ + 200 + k :=
        ⟨i - (ifdStart ℓ + 200), by omega, by omega⟩
      rw [encodeData_getD_offset_window dims tcs bpp signed (o, s) hb ℓ hℓ (by omega) k hk]
      rw [encodeData_getD_offset_window dims tcs bpp signed (o, v) hb ℓ hℓ (by omega) k hk]
    · exact encodeData_getD_single_congr dims tcs bpp signed (o, s) (o, v) hb ℓ hℓ hothers
        i hi (by omega) (by omega)

/-! ### Observations depend on the file only through its byte function -/

theorem valid_mask_congr (b : CogBuilder) (f g : FileState)
    (h : ∀ i, f.bytes i = g.bytes i) (level : Nat) :
    b.valid_mask f level = b.valid_mask g level := by
  unfold CogBuilder.valid_mask
  apply List.map_congr_left
  intro i _
  rw [readU64_congr (fun k _ => h _)]

theorem read_tile_congr (b : CogBuilder) (f g : FileState)
    (h : ∀ i, f.bytes i = g.bytes i) (level index : Nat) :
    b.read_tile f level index = b.read_tile g level index := by
  have h64 : ∀ p, readU64 f p = readU64 g p := fun p => readU64_congr (fun k _ => h _)
  have hrb : ∀ p n, readBytesAt f p n = readBytesAt g p n :=
    fun p n => readBytesAt_congr (fun k _ => h _)
  unfold CogBuilder.read_tile
  rw [h64, h64, hrb]

/-! ### The standing invariant holds for every reachable container state -/

theorem new_small_inv (w h : Nat) (bpp : List Nat) (signed : Bool) (f : FileState)
    (b : CogBuilder) (f' : FileState)
    (hsmall : f.size < 1024 * (pyramidTileCounts w h).length)
    (hnew : CogBuilder.new w h bpp signed f = some (b, f')) :
    StoreInv w h bpp signed b f' := by
  simp only [CogBuilder.new] at hnew
  split at hnew
  · exact absurd hnew (by simp)
  · split at hnew
    · exact absurd hnew (by simp)
    · split at hnew
      · rename_i hA hB hge
        omega
      · simp only [Option.some_bind'] at hnew
        split at hnew
        · exact absurd hnew (by simp)
        · rename_i hA hB hlt hC
          have hb8 : bpp.length ≤ 8 := by omega
          injection hnew with hp
          injection hp with hb hf
          subst hb
          subst hf
          have hdlen := encodeData_length (pyramidDims w h) (pyramidTileCounts w h) bpp signed
            (1, 0) hb8
          have htlen := tableBytes_length (pyramidTileCounts w h)
          have hcond : f.size < max (1024 * (pyramidTileCounts w h).length
              + 16 * (pyramidTileCounts w h).sum) f.size := by
            omega
          rw [if_pos hcond]
          rw [Nat.max_eq_right (show f.size ≤ (encodeData (pyramidDims w h)
            (pyramidTileCounts w h) bpp signed (1, 0)).length by rw [hdlen]; omega)]
          rw [show f.size - (encodeData (pyramidDims w h) (pyramidTileCounts w h) bpp signed
            (1, 0)).length = 0 by rw [hdlen]; omega]
          rw [List.drop_zero, hdlen]
          refine ⟨rfl, rfl, rfl, ?_, ?_, Bool.eq_false_iff.mpr hA, by omega, by omega,
            1, 0, ?_, fun _ => ⟨rfl, rfl⟩⟩
          · show max (1024 * (pyramidTileCounts w h).length
              + 16 * (pyramidTileCounts w h).sum) f.size = _
            rw [writeBytesAt_size, writeBytesAt_size, hdlen, htlen]
            omega
          · rw [writeBytesAt_size, writeBytesAt_size, hdlen, htlen]
            omega
          · intro i hi
            rw [writeBytesAt_bytes_outside _ _ _ _ (Or.inl hi)]
            rw [writeBytesAt_bytes_inside _ _ _ _ (by omega) (by rw [hdlen]; omega)]
            rw [Nat.sub_zero]

theorem reachable_inv (w h : Nat) (bpp : List Nat) (signed : Bool) (b : CogBuilder)
    (f : FileState) (hre : Reachable w h bpp signed b f) :
    StoreInv w h bpp signed b f := by
  induction hre with
  | init f0 b0 f0' hsmall hnew => exact new_small_inv w h bpp signed f0 b0 f0' hsmall hnew
  | wtile b0 f0 b' f' level index tile hre hlevel hindex hw ih =>
    obtain ⟨hbw, hbh, hbt, hbfs, hbcov, hbov, hbne, hble, o, s, hreg, hside⟩ := ih
    unfold CogBuilder.write_tile at hw
    by_cases hfs : b0.file_size = f0.size
    · rw [if_pos hfs] at hw
      injection hw with hp
      injection hp with hb' hf'
      subst hb'
      subst hf'
      have hlev : level < (pyramidTileCounts w h).length := by rw [← hbt]; exact hlevel
      have hidx : index < (pyramidTileCounts w h).getD level 0 := by rw [← hbt]; exact hindex
      have happ : applyWrites f0 (b0.writeTileSteps level index tile)
          = writeBytesAt (writeBytesAt (writeBytesAt f0 b0.file_size tile)
              (b0.offset_size_locations level index).2 (toLE64 tile.length))
            (b0.offset_size_locations level index).1 (toLE64 b0.file_size) := rfl
      rw [happ]
      have hosl := osl_bounds b0 level index hlevel hindex
      have hfull : fullRegionSize b0 = 1024 * (pyramidTileCounts w h).length
          + 16 * (pyramidTileCounts w h).sum := by
        unfold fullRegionSize
        rw [hbt]
      have hsz : (writeBytesAt (writeBytesAt (writeBytesAt f0 b0.file_size tile)
          (b0.offset_size_locations level index).2 (toLE64 tile.length))
          (b0.offset_size_locations level index).1 (toLE64 b0.file_size)).size
          = f0.size + tile.length := by
        rw [writeBytesAt_size, writeBytesAt_size, writeBytesAt_size, toLE64_length,
          toLE64_length]
        omega
      refine ⟨hbw, hbh, hbt, ?_, ?_, hbov, hbne, hble, ?_⟩
      · show b0.file_size + tile.length = _
        rw [hsz]
        omega
      · rw [hsz]
        omega
      · by_cases htc : 1 < b0.tile_counts.getD level 0
        · have h1 : 1024 * (pyramidTileCounts w h).length
              ≤ (b0.offset_size_locations level index).1 := by
            rw [osl_multi b0 level index htc]
            show 1024 * (pyramidTileCounts w h).length ≤ b0.tile_counts.length * 1024
              + (b0.tile_counts.take level).sum * 16 + index * 8
            rw [hbt]
            omega
          have h2 : 1024 * (pyramidTileCounts w h).length
              ≤ (b0.offset_size_locations level index).2 := by
            rw [osl_multi b0 level index htc]
            show 1024 * (pyramidTileCounts w h).length ≤ b0.tile_counts.length * 1024
              + (b0.tile_counts.take level).sum * 16 + index * 8
              + b0.tile_counts.getD level 0 * 8
            rw [hbt]
            omega
          refine ⟨o, s, ?_, hside⟩
          intro i hi
          rw [writeBytesAt_bytes_outside _ _ _ _ (Or.inl (by omega))]
          rw [writeBytesAt_bytes_outside _ _ _ _ (Or.inl (by omega))]
          rw [writeBytesAt_bytes_outside _ _ _ _ (Or.inl (by omega))]
          exact hreg i hi
        · have htc1' : (pyramidTileCounts w h).getD level 0 = 1 := by
            rw [← hbt]
            omega
          have hothers := pyramid_unique_single w h level hlev htc1'
          have hposl := osl_inline b0 level index htc
          rw [hposl]
          refine ⟨b0.file_size, tile.length, ?_, ?_⟩
          · intro i hi
            have hreg1 : ∀ j, j < 1024 * (pyramidTileCounts w h).length →
                (writeBytesAt f0 b0.file_size tile).bytes j
                  = (encodeData (pyramidDims w h) (pyramidTileCounts w h) bpp signed
                      (o, s)).getD j 0 := by
              intro j hj
              rw [writeBytesAt_bytes_outside _ _ _ _ (Or.inl (by omega))]
              exact hreg j hj
            have hreg2 := region_write_inline_size (pyramidDims w h) (pyramidTileCounts w h)
              bpp signed (writeBytesAt f0 b0.file_size tile) o s tile.length hble level hlev
              htc1' hothers hreg1
            exact region_write_inline_offset (pyramidDims w h) (pyramidTileCounts w h)
              bpp signed (writeBytesAt (writeBytesAt f0 b0.file_size tile)
                (ifdStart level + 220) (toLE64 tile.length))
              o tile.length b0.file_size hble level hlev htc1' hothers hreg2 i hi
          · intro hall
            have hmem : (pyramidTileCounts w h).getD level 0 ∈ pyramidTileCounts w h := by
              rw [List.getD_eq_getElem _ 0 hlev]
              exact List.getElem_mem _
            have hx := List.all_eq_true.mp hall _ hmem
            rw [htc1'] at hx
            simp at hx
    · rw [if_neg hfs] at hw
      exact absurd hw (by simp)
  | wnodata b0 f0 level index hre hlevel hindex ih =>
    obtain ⟨hbw, hbh, hbt, hbfs, hbcov, hbov, hbne, hble, o, s, hreg, hside⟩ := ih
    have hlev : level < (pyramidTileCounts w h).length := by rw [← hbt]; exact hlevel
    have hosl := osl_bounds b0 level index hlevel hindex
    have hfull : fullRegionSize b0 = 1024 * (pyramidTileCounts w h).length
        + 16 * (pyramidTileCounts w h).sum := by
      unfold fullRegionSize
      rw [hbt]
    unfold CogBuilder.write_nodata_tile
    refine ⟨hbw, hbh, hbt, ?_, ?_, hbov, hbne, hble, ?_⟩
    · rw [writeBytesAt_size, toLE64_length]
      omega
    · rw [writeBytesAt_size, toLE64_length]
      omega
    · by_cases htc : 1 < b0.tile_counts.getD level 0
      · have h1 : 1024 * (pyramidTileCounts w h).length
            ≤ (b0.offset_size_locations level index).1 := by
          rw [osl_multi b0 level index htc]
          show 1024 * (pyramidTileCounts w h).length ≤ b0.tile_counts.length * 1024
            + (b0.tile_counts.take level).sum * 16 + index * 8
          rw [hbt]
          omega
        refine ⟨o, s, ?_, hside⟩
        intro i hi
        rw [writeBytesAt_bytes_outside _ _ _ _ (Or.inl (by omega))]
        exact hreg i hi
      · have htc1' : (pyramidTileCounts w h).getD level 0 = 1 := by
          rw [← hbt]
          omega
        have hothers := pyramid_unique_single w h level hlev htc1'
        have hposl := osl_inline b0 level index htc
        rw [hposl]
        refine ⟨0, s, ?_, ?_⟩
        · intro i hi
          exact region_write_inline_offset (pyramidDims w h) (pyramidTileCounts w h)
            bpp signed f0 o s 0 hble level hlev htc1' hothers hreg i hi
        · intro hall
          have hmem : (pyramidTileCounts w h).getD level 0 ∈ pyramidTileCounts w h := by
            rw [List.getD_eq_getElem _ 0 hlev]
            exact List.getElem_mem _
          have hx := List.all_eq_true.mp hall _ hmem
          rw [htc1'] at hx
          simp at hx


/-! ### C1: reopening a populated container preserves every observation -/

/-- C1: for every container reachable by creating a store on a small prior
file and populating it with in-range `write_tile` / `write_nodata_tile` calls,
calling `new` again on the same file with the same width, height, channel
depths, and signed flag succeeds, returns the same builder, and leaves every
byte and the file length unchanged — hence every slot state observed by
`valid_mask` and every tile read by `read_tile` is identical to before
reopening; moreover, for each level with exactly one tile, the prior-directory
scan completes without a slice fault and recovers exactly the inline
offset/size values stored in the old record at the tag positions 0x144/0x145
before the directory region is rewritten. -/
theorem claim1_reopen_preserves (w h : Nat) (bpp : List Nat) (signed : Bool)
    (b : CogBuilder) (f : FileState) (hre : Reachable w h bpp signed b f) :
    ∃ f', CogBuilder.new w h bpp signed f = some (b, f') ∧
      (∀ i, f'.bytes i = f.bytes i) ∧ f'.size = f.size ∧
      (∀ level, b.valid_mask f' level = b.valid_mask f level) ∧
      (∀ level index, b.read_tile f' level index = b.read_tile f level index) ∧
      (∀ level, level < b.tile_counts.length → b.tile_counts.getD level 0 = 1 →
        scanIFDs f b.tile_counts =
          some (readU64 f (b.offset_size_locations level 0).1,
                readU64 f (b.offset_size_locations level 0).2)) := by
  obtain ⟨hbw, hbh, hbt, hbfs, hbcov, hbov, hbne, hble, o, s, hreg, hside⟩ :=
    reachable_inv w h bpp signed b f hre
  have hdlen := encodeData_length (pyramidDims w h) (pyramidTileCounts w h) bpp signed
    (if (pyramidTileCounts w h).any (fun tc => tc = 1) then (o % 2 ^ 64, s % 2 ^ 64)
      else (1, 0)) hble
  have hscan := scanIFDs_region (pyramidDims w h) (pyramidTileCounts w h) bpp signed o s f
    hble hreg
  have hdata : ∀ i, i < 1024 * (pyramidTileCounts w h).length →
      (encodeData (pyramidDims w h) (pyramidTileCounts w h) bpp signed
        (if (pyramidTileCounts w h).any (fun tc => tc = 1) then (o % 2 ^ 64, s % 2 ^ 64)
          else (1, 0))).getD i 0
      = (encodeData (pyramidDims w h) (pyramidTileCounts w h) bpp signed (o, s)).getD i 0 := by
    intro i hi
    by_cases hany : (pyramidTileCounts w h).any (fun tc => tc = 1) = true
    · rw [if_pos hany]
      obtain ⟨x, hxmem, hx1⟩ := List.any_eq_true.mp hany
      obtain ⟨ℓ, hℓlen, hℓx⟩ := List.getElem_of_mem hxmem
      have hℓ1 : (pyramidTileCounts w h).getD ℓ 0 = 1 := by
        rw [List.getD_eq_getElem _ 0 hℓlen, hℓx]
        exact of_decide_eq_true hx1
      have hothers := pyramid_unique_single w h ℓ hℓlen hℓ1
      by_cases hwo : ifdStart ℓ + 200 ≤ i ∧ i < ifdStart ℓ + 208
      · obtain ⟨k, hk, rfl⟩ : ∃ k, k < 8 ∧ i = ifdStart ℓ + 200 + k :=
          ⟨i - (ifdStart ℓ + 200), by omega, by omega⟩
        rw [encodeData_getD_offset_window (pyramidDims w h) (pyramidTileCounts w h) bpp
          signed (o % 2 ^ 64, s % 2 ^ 64) hble ℓ hℓlen (by omega) k hk]
        rw [encodeData_getD_offset_window (pyramidDims w h) (pyramidTileCounts w h) bpp
          signed (o, s) hble ℓ hℓlen (by omega) k hk]
        show (toLE64 (o % 2 ^ 64)).getD k 0 = (toLE64 o).getD k 0
        rw [toLE64_mod]
      · by_cases hws : ifdStart ℓ + 220 ≤ i ∧ i < ifdStart ℓ + 228
        · obtain ⟨k, hk, rfl⟩ : ∃ k, k < 8 ∧ i = ifdStart ℓ + 220 + k :=
            ⟨i - (ifdStart ℓ + 220), by omega, by omega⟩
          rw [encodeData_getD_size_window (pyramidDims w h) (pyramidTileCounts w h) bpp
            signed (o % 2 ^ 64, s % 2 ^ 64) hble ℓ hℓlen (by omega) k hk]
          rw [encodeData_getD_size_window (pyramidDims w h) (pyramidTileCounts w h) bpp
            signed (o, s) hble ℓ hℓlen (by omega) k hk]
          show (toLE64 (s % 2 ^ 64)).getD k 0 = (toLE64 s).getD k 0
          rw [toLE64_mod]
        · exact encodeData_getD_single_congr (pyramidDims w h) (pyramidTileCounts w h) bpp
            signed _ _ hble ℓ hℓlen hothers i hi hwo hws
    · rw [if_neg hany]
      have hall : (pyramidTileCounts w h).all (fun tc => tc ≠ 1) = true := by
        rw [List.all_eq_true]
        intro x hx
        simp only [decide_eq_true_eq]
        intro hx1
        exact hany (List.any_eq_true.mpr ⟨x, hx, by simp [hx1]⟩)
      obtain ⟨ho1, hs0⟩ := hside hall
      rw [ho1, hs0]
  have hbytes : ∀ i,
      (writeBytesAt f 0 (encodeData (pyramidDims w h) (pyramidTileCounts w h) bpp signed
        (if (pyramidTileCounts w h).any (fun tc => tc = 1) then (o % 2 ^ 64, s % 2 ^ 64)
          else (1, 0)))).bytes i = f.bytes i := by
    intro i
    by_cases hi : i < 1024 * (pyramidTileCounts w h).length
    · rw [writeBytesAt_bytes_inside f 0 _ i (by omega) (by rw [Nat.zero_add, hdlen]; omega)]
      rw [Nat.sub_zero]
      rw [hdata i hi]
      exact (hreg i hi).symm
    · rw [writeBytesAt_bytes_outside f 0 _ i (Or.inr (by rw [Nat.zero_add, hdlen]; omega))]
  have hsize : (writeBytesAt f 0 (encodeData (pyramidDims w h) (pyramidTileCounts w h) bpp
      signed (if (pyramidTileCounts w h).any (fun tc => tc = 1)
        then (o % 2 ^ 64, s % 2 ^ 64) else (1, 0)))).size = f.size := by
    rw [writeBytesAt_size, Nat.zero_add, hdlen]
    omega
  have hbeq : b = ⟨(pyramidDims w h).map Prod.fst, (pyramidDims w h).map Prod.snd,
      pyramidTileCounts w h, f.size⟩ := by
    obtain ⟨bw, bh, btc, bfs⟩ := b
    rw [CogBuilder.mk.injEq]
    exact ⟨hbw, hbh, hbt, hbfs⟩
  refine ⟨writeBytesAt f 0 (encodeData (pyramidDims w h) (pyramidTileCounts w h) bpp signed
    (if (pyramidTileCounts w h).any (fun tc => tc = 1) then (o % 2 ^ 64, s % 2 ^ 64)
      else (1, 0))), ?_, hbytes, hsize,
    fun level => valid_mask_congr b _ f hbytes level,
    fun level index => read_tile_congr b _ f hbytes level index, ?_⟩
  · simp only [CogBuilder.new]
    rw [if_neg (show ¬ ((pyramidDims w h).any (fun d => 2 ^ 32 ≤ tileCount d.1 d.2) = true)
      from by rw [hbov]; exact Bool.false_ne_true)]
    rw [if_neg (show ¬ (bpp.length = 0 ∨ 8 < bpp.length) by omega)]
    rw [if_pos (show 1024 * (pyramidTileCounts w h).length ≤ f.size by omega)]
    rw [hscan]
    simp only [Option.some_bind']
    rw [if_neg (show ¬ (ifdOversized (pyramidDims w h) (pyramidTileCounts w h) bpp signed
      (if (pyramidTileCounts w h).any (fun tc => tc = 1) then (o % 2 ^ 64, s % 2 ^ 64)
        else (1, 0)) = true) from by
        rw [ifdOversized_false _ _ _ _ _ hble]; exact Bool.false_ne_true)]
    rw [if_neg (show ¬ (f.size < max (1024 * (pyramidTileCounts w h).length
      + 16 * (pyramidTileCounts w h).sum) f.size) by omega)]
    rw [hbeq]
    refine congrArg some ?_
    rw [Prod.mk.injEq]
    refine ⟨?_, rfl⟩
    rw [CogBuilder.mk.injEq]
    exact ⟨rfl, rfl, rfl, by omega⟩
  · intro level hlevel h1
    have hlev : level < (pyramidTileCounts w h).length := by rw [← hbt]; exact hlevel
    have h1' : (pyramidTileCounts w h).getD level 0 = 1 := by rw [← hbt]; exact h1
    rw [hbt, hscan]
    rw [if_pos (List.any_eq_true.mpr ⟨(pyramidTileCounts w h).getD level 0,
      by rw [List.getD_eq_getElem _ 0 hlev]; exact List.getElem_mem _,
      by rw [h1']; rfl⟩)]
    rw [osl_inline b level 0 (by omega)]
    refine congrArg some ?_
    show (o % 2 ^ 64, s % 2 ^ 64)
      = (readU64 f (ifdStart level + 200), readU64 f (ifdStart level + 220))
    rw [region_read_inline_offset (pyramidDims w h) (pyramidTileCounts w h) bpp signed o s f
      hble hreg level hlev (by omega)]
    rw [region_read_inline_size (pyramidDims w h) (pyramidTileCounts w h) bpp signed o s f
      hble hreg level hlev (by omega)]

set_option maxRecDepth 20000 in
set_option maxHeartbeats 4000000 in
/-- Witness for C1: the 1×1 demo container with one written tile reopens to
the same builder with the file length unchanged. -/
theorem claim1_reopen_preserves_witness :
    ∃ f', CogBuilder.new 1 1 [8] false demo1w.2 = some (demo1w.1, f') ∧
      f'.size = demo1w.2.size := by
  have hre : Reachable 1 1 [8] false demo1w.1 demo1w.2 :=
    Reachable.wtile demo1.1 demo1.2 demo1w.1 demo1w.2 0 0 [42]
      (Reachable.init emptyFile demo1.1 demo1.2 (by decide) rfl)
      (by decide) (by decide) rfl
  obtain ⟨f', h1, h2, h3, h4, h5, h6⟩ := claim1_reopen_preserves 1 1 [8] false demo1w.1
    demo1w.2 hre
  exact ⟨f', h1, h3⟩
